import Mathlib

/-!
# Changelog parsing and weekly-cycle grouping pipeline: a verification development

This file gives a shallow embedding, in Lean 4, of the changelog parsing and
weekly-cycle grouping pipeline of a release-notes dashboard:

* the parsing endpoint (`src/app/api/release-notes/route.ts`): the functions
  `cleanTitle` and `normalizeConnector` and the line-walking loop of `GET`,
  including faithful models of every JavaScript regular expression it uses
  (with their greedy/backtracking and global-replace semantics), and
* the weekly grouping / filtering effect (`src/app/page.tsx`, the
  "GROUPING (Wednesday Cycles)" `useEffect`): `getCycleId`, the `groups` /
  `versions` accumulation, `sortedKeys`, and `filteredItems`.

Modelling conventions:

* A JavaScript string is modelled as a `List Char` (code points; all data the
  pipeline handles is in the Basic Multilingual Plane, where JavaScript's
  UTF-16 code-unit order and code-point order agree). Top-level API types use
  Lean `String`, converting through `String.data` / `String.mk`.
* JavaScript `String.prototype.toLowerCase`/`toUpperCase` act on the ASCII
  letters (the only letters the pipeline's connector class `[a-zA-Z0-9_\s]`
  allows); they are modelled character-wise by `jsCharLower` / `jsCharUpper`.
* Dates are modelled at the resolution the grouping code uses them:
  a calendar date is its epoch-day number `n : Int` (days since 1970-01-01,
  so that `date-fns`'s `getDay` is `(n + 4) % 7` with Sunday = 0 and day 0,
  1970-01-01, a Thursday), and a timestamp is its epoch-millisecond number.
  `parseISO "yyyy-MM-dd"` yields local midnight of that day, i.e. epoch-day
  times `86400000` ms.
* Scanning functions that consume a variable number of characters use an
  explicit fuel argument (initialised to the input length) so that every
  definition is structurally recursive and evaluates inside the kernel.
-/

/-! ## JavaScript string primitives over `List Char` -/

/-- The JavaScript whitespace class: the characters matched by the regexp
class `\s` and removed by `String.prototype.trim` (WhiteSpace and
LineTerminator productions). -/
def jsSpace (c : Char) : Bool :=
  c = ' ' || c = '\t' || c = '\n' || c = '\r' ||
  decide (c.toNat = 11) || decide (c.toNat = 12) ||
  decide (c.toNat = 0xA0) || decide (c.toNat = 0x1680) ||
  (decide (0x2000 ≤ c.toNat) && decide (c.toNat ≤ 0x200A)) ||
  decide (c.toNat = 0x2028) || decide (c.toNat = 0x2029) ||
  decide (c.toNat = 0x202F) || decide (c.toNat = 0x205F) ||
  decide (c.toNat = 0x3000) || decide (c.toNat = 0xFEFF)

/-- Drop the maximal trailing run of characters satisfying `p`. -/
def dropTrailing (p : Char → Bool) (l : List Char) : List Char :=
  (l.reverse.dropWhile p).reverse

/-- JavaScript `String.prototype.trim`. -/
def jsTrim (l : List Char) : List Char :=
  dropTrailing jsSpace (l.dropWhile jsSpace)

/-- Auxiliary for `splitOnChar`: `acc` holds the current field, reversed. -/
def splitOnCharAux (sep : Char) : List Char → List Char → List (List Char)
  | [], acc => [acc.reverse]
  | c :: rest, acc =>
    if c = sep then acc.reverse :: splitOnCharAux sep rest []
    else splitOnCharAux sep rest (c :: acc)

/-- JavaScript `String.prototype.split` with a single-character separator. -/
def splitOnChar (sep : Char) (l : List Char) : List (List Char) :=
  splitOnCharAux sep l []

/-- JavaScript `Array.prototype.join` with a single-character separator. -/
def joinChar (sep : Char) : List (List Char) → List Char
  | [] => []
  | [w] => w
  | w :: ws => w ++ sep :: joinChar sep ws

/-- Character-wise model of JavaScript `toLowerCase` on the data this
pipeline handles (ASCII letters). -/
def jsCharLower (c : Char) : Char :=
  if 65 ≤ c.toNat ∧ c.toNat ≤ 90 then Char.ofNat (c.toNat + 32) else c

/-- Character-wise model of JavaScript `toUpperCase` on the data this
pipeline handles (ASCII letters). -/
def jsCharUpper (c : Char) : Char :=
  if 97 ≤ c.toNat ∧ c.toNat ≤ 122 then Char.ofNat (c.toNat - 32) else c

/-- Literal prefix test `startsWithLit pat l` : does `l` start with the literal `pat`? -/
def startsWithLit : List Char → List Char → Bool
  | [], _ => true
  | _ :: _, [] => false
  | a :: as, b :: bs => a = b && startsWithLit as bs

/-- Substring test `containsSeq pat l` : does `pat` occur as a contiguous run in `l`
(JavaScript `String.prototype.includes`)? -/
def containsSeq (pat : List Char) : List Char → Bool
  | [] => startsWithLit pat []
  | l@(_ :: rest) => startsWithLit pat l || containsSeq pat rest

/-- ASCII decimal digit (the regexp class `\d`). -/
def isDigit (c : Char) : Bool :=
  decide ('0' ≤ c) && decide (c ≤ '9')

/-- ASCII letter (part of the regexp class `[a-zA-Z0-9_\s]`). -/
def isAsciiAlpha (c : Char) : Bool :=
  (decide ('a' ≤ c) && decide (c ≤ 'z')) || (decide ('A' ≤ c) && decide (c ≤ 'Z'))

/-- JavaScript `<` on strings (lexicographic by code unit; all data here is
in the BMP, where this agrees with code-point order). -/
def lexLt : List Char → List Char → Bool
  | _, [] => false
  | [], _ :: _ => true
  | a :: as, b :: bs =>
    if a.toNat < b.toNat then true
    else if b.toNat < a.toNat then false
    else lexLt as bs

/-- Decimal value of a digit string (JavaScript `Number` on the digit-only
strings the version pattern produces). -/
def natOfDigits (l : List Char) : Nat :=
  l.foldl (fun a c => a * 10 + (c.toNat - 48)) 0

/-- JavaScript `String(n).padStart(2, '0')` for a natural number `n`. -/
def pad2 (n : Nat) : List Char :=
  let s := (Nat.repr n).data
  List.replicate (2 - s.length) '0' ++ s

/-! ## The regular expressions of `route.ts`, modelled exactly

Each JavaScript regex is modelled by a "try at this position" function
returning, on success, the remainder of the input after the match (always a
suffix of the input), together with any capture groups. The scanners below
implement the leftmost-match and global-replace semantics of
`String.prototype.match` and `String.prototype.replace`. -/

/-- The literal `https://github.com` (as required by the title-cleaning
patterns, which have no slash after `.com`). -/
def githubLit : List Char := "https://github.com".data

/-- The literal `https://github.com/` (as required by the PR-link pattern). -/
def githubSlashLit : List Char := "https://github.com/".data

/-- The global-replace engine `globalReplaceAux try_ rep fuel l` : JavaScript
`l.replace(/pattern/g, rep)` where `try_` attempts the pattern at the head of
its argument and yields the remainder after the match. On a match the
replacement is emitted and scanning resumes after the match; otherwise one
character is emitted and scanning advances by one. `fuel` only serves
termination; `l.length` suffices since every match consumes at least one
character. -/
def globalReplaceAux (try_ : List Char → Option (List Char)) (rep : List Char) :
    Nat → List Char → List Char
  | _, [] => []
  | 0, l => l
  | fuel + 1, c :: rest =>
    match try_ (c :: rest) with
    | some r => rep ++ globalReplaceAux try_ rep fuel r
    | none => c :: globalReplaceAux try_ rep fuel rest

/-- JavaScript global replace, fuelled by the input length. -/
def globalReplace (try_ : List Char → Option (List Char)) (rep : List Char)
    (l : List Char) : List Char :=
  globalReplaceAux try_ rep l.length l

/-- Step 1 of `cleanTitle`: one attempt of
`/\[#\d+\]\(https:\/\/github\.com[^\)]*\)/` at the head of the input.
The digit run and the `[^\)]*` run are greedy; since `]` is not a digit and
`)` is not in `[^\)]`, backtracking cannot rescue a failed greedy run, so the
maximal-run reading below is exact. -/
def prLinkTryAt : List Char → Option (List Char)
  | '[' :: '#' :: r1 =>
    let ds := r1.takeWhile isDigit
    if ds = [] then none
    else
      match r1.dropWhile isDigit with
      | ']' :: '(' :: r3 =>
        if startsWithLit githubLit r3 then
          match (r3.drop githubLit.length).dropWhile (fun c => !(c = ')')) with
          | ')' :: r6 => some r6
          | _ => none
        else none
      | _ => none
  | _ => none

/-- Step 2 of `cleanTitle`: one attempt of
`/\(https:\/\/github\.com[^\)]*\)/` at the head of the input. -/
def parenUrlTryAt : List Char → Option (List Char)
  | '(' :: r =>
    if startsWithLit githubLit r then
      match (r.drop githubLit.length).dropWhile (fun c => !(c = ')')) with
      | ')' :: r3 => some r3
      | _ => none
    else none
  | _ => none

/-- Step 3 of `cleanTitle`: one attempt of `/\(\s*\)/` at the head. -/
def emptyParensTryAt : List Char → Option (List Char)
  | '(' :: r =>
    match r.dropWhile jsSpace with
    | ')' :: r2 => some r2
    | _ => none
  | _ => none

/-- Step 4 of `cleanTitle`: one attempt of `/\*\*/` at the head. -/
def doubleStarTryAt : List Char → Option (List Char)
  | '*' :: '*' :: r => some r
  | _ => none

/-- Step 5 of `cleanTitle`: one attempt of `/\[[^\]]+\]/` at the head.
The interior class `[^\]]` excludes `]`, so the greedy interior run is the
maximal `]`-free run and backtracking cannot rescue a failure. -/
def bracketTryAt : List Char → Option (List Char)
  | [] => none
  | c :: r =>
    if c = '[' then
      if r.takeWhile (fun x => !(x = ']')) = [] then none
      else
        match r.dropWhile (fun x => !(x = ']')) with
        | [] => none
        | d :: r2 => if d = ']' then some r2 else none
    else none

/-- Step 7 of `cleanTitle`: one attempt of `/\s{2,}/` at the head (a greedy
run of at least two whitespace characters; replaced by a single space). -/
def wsRunTryAt : List Char → Option (List Char)
  | c :: d :: rest =>
    if jsSpace c && jsSpace d then some ((d :: rest).dropWhile jsSpace)
    else none
  | _ => none

/-- The character class of `cleanTitle`'s final trailing trim,
`/[-â€“:,;.\s]+$/`. The source file stores the en dash of the intended class
mojibake-decoded as the three characters `â`, `€`, `“`; the model keeps the
class exactly as the code has it. -/
def trimClassB (c : Char) : Bool :=
  c = '-' || c = 'â' || c = '€' || c = '“' || c = ':' || c = ',' ||
  c = ';' || c = '.' || jsSpace c

/-- Function `cleanTitle` from `route.ts`, on `List Char`: nine replacement passes in
the source's order. The trailing `/[-â€“:,;.\s]+$/` replace removes the
maximal trailing run of class characters, i.e. `dropTrailing trimClassB`. -/
def cleanTitleL (raw : List Char) : List Char :=
  let t1 := globalReplace prLinkTryAt [] raw
  let t2 := globalReplace parenUrlTryAt [] t1
  let t3 := globalReplace emptyParensTryAt [] t2
  let t4 := globalReplace doubleStarTryAt [] t3
  let t5 := globalReplace bracketTryAt [] t4
  let t6 := t5.filter (fun c => !(c = '`'))
  let t7 := globalReplace wsRunTryAt [' '] t6
  let t8 := jsTrim t7
  dropTrailing trimClassB t8

/-- Function `cleanTitle` from `route.ts` on `String`. -/
def cleanTitle (raw : String) : String :=
  String.mk (cleanTitleL raw.data)

/-- A word capitalisation step of `normalizeConnector`:
`word.charAt(0).toUpperCase() + word.slice(1)`. -/
def capitalizeWord : List Char → List Char
  | [] => []
  | c :: cs => jsCharUpper c :: cs

/-- Function `normalizeConnector` from `route.ts`, on `List Char`: lowercase, split on
single spaces, capitalise each word's first character, rejoin. -/
def normalizeConnectorL (raw : List Char) : List Char :=
  if raw = [] then []
  else joinChar ' ' (((splitOnChar ' ' (raw.map jsCharLower)).map capitalizeWord))

/-- Function `normalizeConnector` from `route.ts` on `String`. -/
def normalizeConnector (raw : String) : String :=
  String.mk (normalizeConnectorL raw.data)

/-- The header pattern `/^##\s*\[?(\d{4}\.\d{1,2}\.\d{1,2}\.\d{1,2})\]?/`
after `##`, `\s*` and the optional `[` have been consumed: four digits, a
dot, then two 1–2-digit components each followed by a dot, then a final
1–2-digit component. A middle `\d{1,2}` is greedy but must leave a `.` next:
since digits are not dots, this succeeds exactly when the maximal digit run
has length 1 or 2 and is followed by `.`. The final `\d{1,2}` is followed by
the always-satisfiable `\]?`, so it simply captures the first
`min 2 (run length)` digits of a nonempty digit run. -/
def headerVersionCore (l : List Char) : Option (List Char) :=
  match l with
  | a :: b :: c :: d :: rest =>
    if isDigit a && isDigit b && isDigit c && isDigit d then
      match rest with
      | '.' :: r1 =>
        let m := r1.takeWhile isDigit
        if m.length = 1 ∨ m.length = 2 then
          match r1.dropWhile isDigit with
          | '.' :: r3 =>
            let dd := r3.takeWhile isDigit
            if dd.length = 1 ∨ dd.length = 2 then
              match r3.dropWhile isDigit with
              | '.' :: r5 =>
                let n := r5.takeWhile isDigit
                if n = [] then none
                else some ([a, b, c, d] ++ '.' :: m ++ '.' :: dd ++ '.' :: n.take 2)
              | _ => none
            else none
          | _ => none
        else none
      | _ => none
    else none
  | _ => none

/-- The full anchored header match of `route.ts`:
`trimmed.match(/^##\s*\[?(\d{4}\.\d{1,2}\.\d{1,2}\.\d{1,2})\]?/)`, returning
the capture group. Committing to the optional `[` when present is sound:
`[` is not a digit, so the branch that skips a present `[` can never match. -/
def headerVersion (l : List Char) : Option (List Char) :=
  match l with
  | '#' :: '#' :: rest =>
    let r1 := rest.dropWhile jsSpace
    match r1 with
    | '[' :: t => headerVersionCore t
    | _ => headerVersionCore r1
  | _ => none

/-- The connector class `[a-zA-Z0-9_\s]`. -/
def connClass (c : Char) : Bool :=
  isAsciiAlpha c || isDigit c || c = '_' || jsSpace c

/-- The connector match `content.match(/\[([a-zA-Z0-9_\s]+)\]/)` : the first (leftmost) bracket
whose nonempty maximal class run is immediately followed by `]`; returns the
capture group. A failed attempt at one `[` does not block later ones. -/
def connectorScan : List Char → Option (List Char)
  | [] => none
  | c :: rest =>
    if c = '[' then
      let run := rest.takeWhile connClass
      if run ≠ [] ∧ (rest.dropWhile connClass).head? = some ']' then some run
      else connectorScan rest
    else connectorScan rest

/-- One attempt of `/\[#(\d+)\]\((https:\/\/github\.com\/[^\)]+)\)/` at a
position just after a `[`: returns (digits capture, URL capture). -/
def prTryAfterBracket (rest : List Char) : Option (List Char × List Char) :=
  match rest with
  | '#' :: r1 =>
    let ds := r1.takeWhile isDigit
    if ds = [] then none
    else
      match r1.dropWhile isDigit with
      | ']' :: '(' :: r3 =>
        if startsWithLit githubSlashLit r3 then
          let tl := (r3.drop githubSlashLit.length).takeWhile (fun c => !(c = ')'))
          if tl = [] then none
          else
            match (r3.drop githubSlashLit.length).dropWhile (fun c => !(c = ')')) with
            | ')' :: _ => some (ds, githubSlashLit ++ tl)
            | _ => none
        else none
      | _ => none
  | _ => none

/-- The PR-link match `content.match(/\[#(\d+)\]\((https:\/\/github\.com\/[^\)]+)\)/)` :
leftmost match, returning both capture groups. -/
def prScan : List Char → Option (List Char × List Char)
  | [] => none
  | c :: rest =>
    if c = '[' then
      match prTryAfterBracket rest with
      | some r => some r
      | none => prScan rest
    else prScan rest

/-! ## The parsing loop of `GET` in `route.ts` -/

/-- The item type: `'Feature' | 'Bug Fix'`. -/
inductive RType where
  | Feature : RType
  | BugFix : RType
deriving DecidableEq, Repr

/-- Type `ReleaseItem` from `route.ts`. -/
structure ReleaseItem where
  title : String
  rtype : RType
  connector : Option String
  prNumber : Option String
  prUrl : Option String
  originalDate : String
  version : Option String
deriving DecidableEq, Repr

/-- Type `ReleaseWeek` from `route.ts`. -/
structure ReleaseWeek where
  id : String
  date : String
  headline : String
  items : List ReleaseItem
deriving DecidableEq, Repr

/-- The loop state of `GET`: the weeks pushed so far are `completed` plus,
when present, the still-growing `current` (in `route.ts` the current week
object sits inside the `weeks` array and is mutated in place; here it is
kept separate and appended by `pushCurrent`). -/
structure PState where
  completed : List ReleaseWeek
  current : Option ReleaseWeek
  currentVersion : Option String
deriving DecidableEq, Repr

/-- All weeks pushed so far, in document order. -/
def pushCurrent (st : PState) : List ReleaseWeek :=
  st.completed ++ st.current.toList

/-- Building one `ReleaseItem` from a bullet's `content` (the trimmed text
after the leading `-`), exactly as the body of the bullet branch of `GET`:
type detection by fix-vocabulary substring on the lowercased content,
connector extraction and normalization, PR extraction, title cleaning. -/
def mkBullet (content : List Char) (date : String) (version : Option String) :
    ReleaseItem :=
  let lower := content.map jsCharLower
  let t : RType :=
    if containsSeq "fix".data lower || containsSeq "bug".data lower ||
        containsSeq "resolves".data lower then .BugFix else .Feature
  let conn : Option String :=
    match connectorScan content with
    | some run =>
      let rc := jsTrim run
      if rc = [] then none else some (String.mk (normalizeConnectorL rc))
    | none => none
  let pr := prScan content
  { title := String.mk (cleanTitleL content)
    rtype := t
    connector := conn
    prNumber := pr.map (fun p => String.mk p.1)
    prUrl := pr.map (fun p => String.mk p.2)
    originalDate := date
    version := version }

/-- The derived `yyyy-MM-dd` date string of a version id:
`const [y, m, d] = currentVersion.split('.').map(Number)` then
`` `${y}-${String(m).padStart(2,'0')}-${String(d).padStart(2,'0')}` ``. -/
def dateOfVersion (v : List Char) : String :=
  let comps := splitOnChar '.' v
  let y := natOfDigits (comps.headD [])
  let m := natOfDigits ((comps.drop 1).headD [])
  let d := natOfDigits ((comps.drop 2).headD [])
  String.mk ((Nat.repr y).data ++ '-' :: pad2 m ++ '-' :: pad2 d)

/-- The fresh `currentWeek` object built at a header line. -/
def newWeek (dateStr : String) : ReleaseWeek :=
  { id := dateStr, date := dateStr, headline := "Release " ++ dateStr, items := [] }

/-- One iteration body on an already-trimmed line: a header line starts a
fresh current week; otherwise a line starting with `-` (when a current week
exists) contributes a bullet, which is dropped when its content or its
cleaned title is empty; all other lines leave the state unchanged.
`trimmed.startsWith('-')` is `head? = some '-'` and `trimmed.substring(1)`
is `tail`. -/
def stepTrimmed (st : PState) (trimmed : List Char) : PState :=
  match headerVersion trimmed with
  | some v =>
    { completed := pushCurrent st
      current := some (newWeek (dateOfVersion v))
      currentVersion := some (String.mk v) }
  | none =>
    if trimmed.head? = some '-' then
      match st.current with
      | none => st
      | some wk =>
        if jsTrim trimmed.tail = [] then st
        else if (mkBullet (jsTrim trimmed.tail) wk.date st.currentVersion).title = "" then st
        else { st with current := some { wk with
                 items := wk.items ++ [mkBullet (jsTrim trimmed.tail) wk.date st.currentVersion] } }
    else st

/-- One iteration of the `for (const line of lines)` loop of `GET`. -/
def stepLine (st : PState) (line : List Char) : PState :=
  stepTrimmed st (jsTrim line)

/-- The initial loop state. -/
def initPState : PState :=
  { completed := [], current := none, currentVersion := none }

/-- Parse a list of (unsplit) lines. -/
def parseLines (lines : List (List Char)) : List ReleaseWeek :=
  pushCurrent (lines.foldl stepLine initPState)

/-- The whole parsing pass of `GET` on fetched text:
`text.split('\n')` then the line loop. -/
def parseChangelog (text : String) : List ReleaseWeek :=
  parseLines (splitOnChar '\n' text.data)

/-- The fetch outcome seen by `GET`: either the network/HTTP step failed
(non-OK response or thrown fetch error) or it yielded the document text. -/
inductive FetchResult where
  | failure : FetchResult
  | success : String → FetchResult
deriving DecidableEq, Repr

/-- The `GET` handler's observable result: a thrown fetch error is caught
and becomes the 500 `{ error: 'Failed to load data' }` response; otherwise
the parsed weeks are returned. -/
def getReleaseNotes : FetchResult → Except String (List ReleaseWeek)
  | .failure => .error "Failed to load data"
  | .success t => .ok (parseChangelog t)

/-! ## The Wednesday-cycle grouping effect of `page.tsx`

Dates are epoch-day numbers `n : Int`; `date-fns`'s `getDay` is then
`(n + 4) % 7` (Sunday = 0; epoch day 0, 1970-01-01, is a Thursday). The
string cycle keys `format(cycle, 'yyyy-MM-dd')` sorted descending by
`localeCompare` correspond exactly to day numbers sorted descending, since
`yyyy-MM-dd` strings of the same width order like their dates. -/

/-- Function `getDay` of `date-fns` on an epoch day. -/
def getDay (n : Int) : Int := (n + 4) % 7

/-- Function `isWednesday` of `date-fns`. -/
def isWednesdayDay (n : Int) : Bool := decide (getDay n = 3)

/-- Function `nextWednesday` of `date-fns`, i.e. `nextDay(date, 3)`:
`delta = 3 - getDay(date)`, bumped by 7 when `≤ 0`, then `addDays`. -/
def nextWednesdayDay (n : Int) : Int :=
  let delta := 3 - getDay n
  n + (if delta ≤ 0 then delta + 7 else delta)

/-- Function `getCycleId` of the grouping effect, at day resolution:
`isWednesday(date) ? date : nextWednesday(date)`. -/
def getCycleIdDay (n : Int) : Int :=
  if isWednesdayDay n then n else nextWednesdayDay n

/-- A flat item as the grouping effect consumes it: `originalDate` is the
epoch day of `parseISO(item.originalDate)`. -/
structure GItem where
  originalDate : Int
  rtype : RType
  connector : Option String
  version : Option String
deriving DecidableEq, Repr

/-- First-occurrence deduplication: the key order of a JavaScript object
(`Object.keys(groups)`) whose string keys are inserted by the
`allItemsFlat.forEach` pass. -/
def firstDedupAux : List Int → List Int → List Int
  | [], _ => []
  | k :: rest, seen =>
    if k ∈ seen then firstDedupAux rest seen
    else k :: firstDedupAux rest (k :: seen)

/-- First-occurrence deduplication. -/
def firstDedup (l : List Int) : List Int := firstDedupAux l []

/-- The distinct cycle keys in insertion order (`Object.keys(groups)`). -/
def cycleKeysOf (items : List GItem) : List Int :=
  firstDedup (items.map (fun it => getCycleIdDay it.originalDate))

/-- The `sortedKeys` list: keys sorted descending (`(a, b) => b.localeCompare(a)`). -/
def sortedKeysOf (items : List GItem) : List Int :=
  List.insertionSort (fun a b => b ≤ a) (cycleKeysOf items)

/-- The bucket `groups[k]`: the member items of cycle `k`, in flat-list order. -/
def membersOf (items : List GItem) (k : Int) : List GItem :=
  items.filter (fun it => getCycleIdDay it.originalDate = k)

/-- One `versions[cycleId]` update of the `forEach` pass, as a function of
the accumulator and the item's `version`:
`if (item.version && (!versions[cycleId] || item.version > versions[cycleId]))
versions[cycleId] = item.version`. JavaScript `>` on strings is `lexLt`
flipped; an empty-string version is falsy and never stored. -/
def versionsUpd : Option String → Option String → Option String
  | a, none => a
  | none, some v => if v = "" then none else some v
  | some w, some v => if v = "" then some w else if lexLt w.data v.data then some v else some w

/-- One `versions[cycleId]` update applied to an item. -/
def versionsStep (acc : Option String) (it : GItem) : Option String :=
  versionsUpd acc it.version

/-- The final `versions[k]` after the whole `forEach` pass: the running
update restricted to the items of cycle `k`. -/
def versionsFor (items : List GItem) (k : Int) : Option String :=
  items.foldl
    (fun acc it => if getCycleIdDay it.originalDate = k then versionsStep acc it else acc)
    none

/-- The field `releaseVersion: versions[key] || null`. -/
def releaseVersionFor (items : List GItem) (k : Int) : Option String :=
  match versionsFor items k with
  | some v => if v = "" then none else some v
  | none => none

/-- The filter controls: `'All'` sentinels for connector and type, empty
(`none`) date bounds for the `yyyy-MM-dd` date inputs (dates as epoch
days). -/
structure FilterState where
  connectorFilter : String
  typeFilter : String
  fromDate : Option Int
  toDate : Option Int
deriving DecidableEq, Repr

/-- The no-filter state (`'All'`, `'All'`, `''`, `''`). -/
def defaultFilter : FilterState :=
  { connectorFilter := "All", typeFilter := "All", fromDate := none, toDate := none }

/-- The value of `item.type` as the string the filter compares against. -/
def typeStr : RType → String
  | .Feature => "Feature"
  | .BugFix => "Bug Fix"

/-- Milliseconds per day. -/
def msPerDay : Int := 86400000

/-- Function `parseISO` on a `yyyy-MM-dd` string: local midnight of that day. -/
def parseISOms (day : Int) : Int := day * msPerDay

/-- Function `startOfDay` of `date-fns` on an epoch-millisecond timestamp. -/
def startOfDayMs (t : Int) : Int := msPerDay * (t.fdiv msPerDay)

/-- Function `endOfDay` of `date-fns` on an epoch-millisecond timestamp. -/
def endOfDayMs (t : Int) : Int := startOfDayMs t + (msPerDay - 1)

/-- The per-item filter predicate of `filteredItems` in the grouping effect:
four early-return `false` tests, then `true`. -/
def filterKeep (fs : FilterState) (it : GItem) : Bool :=
  if fs.connectorFilter ≠ "All" ∧ it.connector ≠ some fs.connectorFilter then false
  else if fs.typeFilter ≠ "All" ∧ typeStr it.rtype ≠ fs.typeFilter then false
  else if (match fs.fromDate with
           | some fd => decide (parseISOms it.originalDate < startOfDayMs (parseISOms fd))
           | none => false) then false
  else if (match fs.toDate with
           | some td => decide (endOfDayMs (parseISOms td) < parseISOms it.originalDate)
           | none => false) then false
  else true

/-- The call `items.filter(...)` with the filter controls. -/
def filterItems (fs : FilterState) (items : List GItem) : List GItem :=
  items.filter (filterKeep fs)

/-- The grouping output exposed per cycle (the fields the claims concern). -/
structure ReleaseCycle where
  cycleKey : Int
  releaseVersion : Option String
  items : List GItem
deriving DecidableEq, Repr

/-- The mapping `allGroupsMapped` restricted to the grouping fields: one `ReleaseCycle`
per sorted key, with `releaseVersion` from the unfiltered `versions` map and
`items` the per-group `filteredItems`. -/
def groupCyclesF (fs : FilterState) (items : List GItem) : List ReleaseCycle :=
  (sortedKeysOf items).map
    (fun k => { cycleKey := k
                releaseVersion := releaseVersionFor items k
                items := filterItems fs (membersOf items k) })

/-- The grouping with no filters active. -/
def groupCycles (items : List GItem) : List ReleaseCycle :=
  groupCyclesF defaultFilter items

/-- Every emitted item arises from `mkBullet` on some bullet content whose
cleaned title is nonempty. -/
def emittedItemOK (it : ReleaseItem) : Prop :=
  ∃ content date ver, it = mkBullet content date ver ∧ cleanTitleL content ≠ []

/-- The parser-state invariant: all items of all pushed weeks are emitted
bullets. -/
def stateItemsOK (st : PState) : Prop :=
  ∀ wk, (wk ∈ st.completed ∨ st.current = some wk) → ∀ it ∈ wk.items, emittedItemOK it

/-- The character class of the trim claimed by the specification:
`-`, `:`, `,`, `;`, `.` and whitespace (a subset of the code's
`trimClassB`, which also holds the three mojibake characters). -/
def claimTrimClass (c : Char) : Bool :=
  c = '-' || c = ':' || c = ',' || c = ';' || c = '.' || jsSpace c

/-- Bracket safety: every `[` in the list is either immediately followed by
`]` (the empty pair `[]`, which the removal pattern cannot match) or is
followed by no `]` at all. A bracket-safe list contains no removable
bracketed token. -/
def brSafe : List Char → Bool
  | [] => true
  | [_] => true
  | c :: d :: rest2 =>
    if c = '[' then
      (if d = ']' then brSafe rest2 else !(decide (']' ∈ rest2)))
    else brSafe (d :: rest2)

/-! ## Day arithmetic of the cycle anchor -/

theorem isWednesdayDay_iff (n : Int) : isWednesdayDay n = true ↔ (n + 4) % 7 = 3 := by
  simp [isWednesdayDay, getDay]

theorem getCycleIdDay_char (n : Int) :
    (getCycleIdDay n + 4) % 7 = 3 ∧ n ≤ getCycleIdDay n ∧ getCycleIdDay n ≤ n + 6 ∧
    ((n + 4) % 7 = 3 → getCycleIdDay n = n) ∧
    ((n + 4) % 7 ≠ 3 → getCycleIdDay n = nextWednesdayDay n ∧ n < getCycleIdDay n) := by
  unfold getCycleIdDay isWednesdayDay nextWednesdayDay getDay
  by_cases h : (n + 4) % 7 = 3 <;> simp [h] <;> omega

theorem getCycleIdDay_min (n m : Int) (h1 : n ≤ m) (h2 : (m + 4) % 7 = 3) :
    getCycleIdDay n ≤ m := by
  unfold getCycleIdDay isWednesdayDay nextWednesdayDay getDay
  by_cases h : (n + 4) % 7 = 3 <;> simp [h] <;> omega

theorem mem_of_mem_firstDedupAux :
    ∀ (l seen : List Int) (x : Int), x ∈ firstDedupAux l seen → x ∈ l := by
  intro l
  induction l with
  | nil => intro seen x h; simp [firstDedupAux] at h
  | cons k rest ih =>
    intro seen x h
    simp only [firstDedupAux] at h
    by_cases hk : k ∈ seen
    · simp only [if_pos hk] at h
      exact List.mem_cons_of_mem _ (ih _ _ h)
    · simp only [if_neg hk, List.mem_cons] at h
      rcases h with h | h
      · simp [h]
      · exact List.mem_cons_of_mem _ (ih _ _ h)

theorem mem_sortedKeysOf (items : List GItem) (k : Int)
    (h : k ∈ sortedKeysOf items) :
    ∃ it, it ∈ items ∧ getCycleIdDay it.originalDate = k := by
  have h1 : k ∈ cycleKeysOf items :=
    (List.perm_insertionSort (fun a b : Int => b ≤ a) (cycleKeysOf items)).mem_iff.mp h
  have h2 := mem_of_mem_firstDedupAux _ _ _ h1
  rcases List.mem_map.mp h2 with ⟨it, hit, hk⟩
  exact ⟨it, hit, hk⟩

/-- Claim C1: for every item fed to the Weekly Cycle Grouper, the computed
cycle end is the item's own date when that date is a Wednesday, and
otherwise the next Wednesday strictly after it; consequently, for every
emitted cycle, the key is a Wednesday and every member's date is equal to
the key or strictly before it by at most 6 days (the key being the first
Wednesday on or after the member's date). -/
theorem claim1_wednesday_cycle :
    (∀ n : Int, isWednesdayDay n = true → getCycleIdDay n = n) ∧
    (∀ n : Int, isWednesdayDay n = false →
      getCycleIdDay n = nextWednesdayDay n ∧ n < getCycleIdDay n) ∧
    (∀ n : Int, isWednesdayDay (getCycleIdDay n) = true ∧
      n ≤ getCycleIdDay n ∧ getCycleIdDay n ≤ n + 6) ∧
    (∀ n m : Int, n ≤ m → isWednesdayDay m = true → getCycleIdDay n ≤ m) ∧
    (∀ fs items c, c ∈ groupCyclesF fs items →
      isWednesdayDay c.cycleKey = true ∧
      ∀ it, it ∈ c.items →
        getCycleIdDay it.originalDate = c.cycleKey ∧
        c.cycleKey - 6 ≤ it.originalDate ∧ it.originalDate ≤ c.cycleKey) := by
  refine ⟨?_, ?_, ?_, ?_, ?_⟩
  · intro n h
    exact (getCycleIdDay_char n).2.2.2.1 ((isWednesdayDay_iff n).mp h)
  · intro n h
    have h' : (n + 4) % 7 ≠ 3 := by
      intro hc
      rw [(isWednesdayDay_iff n).mpr hc] at h
      simp at h
    exact (getCycleIdDay_char n).2.2.2.2 h'
  · intro n
    exact ⟨(isWednesdayDay_iff _).mpr (getCycleIdDay_char n).1,
      (getCycleIdDay_char n).2.1, (getCycleIdDay_char n).2.2.1⟩
  · intro n m h1 h2
    exact getCycleIdDay_min n m h1 ((isWednesdayDay_iff m).mp h2)
  · intro fs items c hc
    rcases List.mem_map.mp hc with ⟨k, hk, hck⟩
    rcases mem_sortedKeysOf items k hk with ⟨it0, _, hit0⟩
    have hkey : c.cycleKey = k := by rw [← hck]
    constructor
    · rw [hkey, ← hit0]
      exact (isWednesdayDay_iff _).mpr (getCycleIdDay_char _).1
    · intro it hmem
      have hitems : c.items = filterItems fs (membersOf items k) := by rw [← hck]
      rw [hitems] at hmem
      have hmem2 : it ∈ membersOf items k := List.mem_of_mem_filter hmem
      have heq : getCycleIdDay it.originalDate = k := by
        have := (List.mem_filter.mp hmem2).2
        simpa using this
      refine ⟨by rw [hkey, heq], ?_, ?_⟩
      · rw [hkey, ← heq]
        have := (getCycleIdDay_char it.originalDate).2.2.1
        omega
      · rw [hkey, ← heq]
        exact (getCycleIdDay_char it.originalDate).2.1

/-- Witness for C1 at concrete inputs: epoch day 6 (1970-01-07) is a
Wednesday and its own cycle end; epoch day 3 (1970-01-04, a Sunday) rolls
forward to day 6; a two-item flat list produces one cycle keyed by day 6
containing both items. -/
theorem claim1_wednesday_cycle_witness :
    getCycleIdDay 6 = 6 ∧ getCycleIdDay 3 ≤ 6 ∧
    isWednesdayDay
      ({ cycleKey := 6, releaseVersion := none,
         items := [⟨6, .Feature, none, none⟩, ⟨3, .BugFix, none, none⟩] } :
        ReleaseCycle).cycleKey = true :=
  ⟨claim1_wednesday_cycle.1 6 (by decide),
   claim1_wednesday_cycle.2.2.2.1 3 6 (by decide) (by decide),
   (claim1_wednesday_cycle.2.2.2.2 defaultFilter
      [⟨6, .Feature, none, none⟩, ⟨3, .BugFix, none, none⟩]
      { cycleKey := 6, releaseVersion := none,
        items := [⟨6, .Feature, none, none⟩, ⟨3, .BugFix, none, none⟩] }
      (by decide)).1⟩

/-- Claim C2: parsing the two-line document `## [2026.1.7.0]` /
`- [ADYEN] Added support for installments ([#4821](...))` emits exactly one
item with the expected title, type, connector, PR number, PR URL, original
date and version. -/
theorem claim2_example_bullet :
    parseChangelog "## [2026.1.7.0]\n- [ADYEN] Added support for installments ([#4821](https://github.com/juspay/hyperswitch/pull/4821))" =
      [{ id := "2026-01-07", date := "2026-01-07", headline := "Release 2026-01-07",
         items := [{ title := "Added support for installments", rtype := RType.Feature,
                     connector := some "Adyen", prNumber := some "4821",
                     prUrl := some "https://github.com/juspay/hyperswitch/pull/4821",
                     originalDate := "2026-01-07", version := some "2026.1.7.0" }] }] := by
  decide

/-- Counterexample to claim C9 as stated: the line `## [2026.123.4.5]`
starts with `##` and its bracketed token has four dot-separated components,
yet the classifier ignores it (the middle component `123` has three digits,
which `\d{1,2}` followed by `\.` cannot match even with backtracking). -/
theorem claim9_counterexample :
    headerVersion (jsTrim "## [2026.123.4.5]".data) = none ∧
    startsWithLit "##".data (jsTrim "## [2026.123.4.5]".data) = true ∧
    (splitOnChar '.' "2026.123.4.5".data).length = 4 ∧
    stepLine initPState "## [2026.123.4.5]".data = initPState := by
  decide

/-- Claim C9 (amended): the header pattern is matched as a prefix, not
exactly: a header line whose FINAL version component has more digits than
the pattern allows (e.g. `## [2026.1.7.123]`) still starts a new section,
with versionId the longest matching prefix (`2026.1.7.12`); a line is
ignored exactly when the anchored pattern fails at its start, which can
also happen for a `##` line with four dot-separated components (e.g. a
three-digit middle component). -/
theorem claim9_header_matching :
    headerVersion (jsTrim "## [2026.1.7.123]".data) = some "2026.1.7.12".data ∧
    parseChangelog "## [2026.1.7.123]\n- added new flow" =
      [{ id := "2026-01-07", date := "2026-01-07", headline := "Release 2026-01-07",
         items := [{ title := "added new flow", rtype := RType.Feature,
                     connector := none, prNumber := none, prUrl := none,
                     originalDate := "2026-01-07", version := some "2026.1.7.12" }] }] ∧
    headerVersion (jsTrim "## 2026.1.7.99999".data) = some "2026.1.7.99".data ∧
    headerVersion (jsTrim "## [2026.1]".data) = none := by
  decide

/-! ## The Filter Engine -/

theorem startOfDay_parseISO (d : Int) : startOfDayMs (d * 86400000) = d * 86400000 := by
  unfold startOfDayMs msPerDay
  rw [Int.mul_fdiv_cancel _ (by norm_num)]
  ring

/-- Claim C6: the filter returns exactly the items satisfying all specified
predicates (AND semantics); the connector and type tests are exact equality,
the date range is inclusive on both ends (the item's midnight is compared
against the from-day's start of day and the to-day's end of day); with no
filters specified, the flat list is returned unchanged. -/
theorem claim6_filter_conjunction :
    (∀ fs items, filterItems fs items = items.filter (filterKeep fs)) ∧
    (∀ fs it, filterKeep fs it = true ↔
       ((fs.connectorFilter ≠ "All" → it.connector = some fs.connectorFilter) ∧
        (fs.typeFilter ≠ "All" → typeStr it.rtype = fs.typeFilter) ∧
        (∀ fd, fs.fromDate = some fd → fd ≤ it.originalDate) ∧
        (∀ td, fs.toDate = some td → it.originalDate ≤ td))) ∧
    (∀ items, filterItems defaultFilter items = items) := by
  have hkeep : ∀ fs it, filterKeep fs it = true ↔
      ((fs.connectorFilter ≠ "All" → it.connector = some fs.connectorFilter) ∧
       (fs.typeFilter ≠ "All" → typeStr it.rtype = fs.typeFilter) ∧
       (∀ fd, fs.fromDate = some fd → fd ≤ it.originalDate) ∧
       (∀ td, fs.toDate = some td → it.originalDate ≤ td)) := by
    intro fs it
    rcases fs with ⟨cf, tf, fd0, td0⟩
    unfold filterKeep
    rcases fd0 with _ | fd <;> rcases td0 with _ | td <;>
      simp only [] <;> split_ifs with h1 h2 h3 h4 <;>
      simp_all [parseISOms, msPerDay, endOfDayMs, startOfDay_parseISO] <;>
      first
        | omega
        | (constructor <;> omega)
        | tauto
  refine ⟨fun _ _ => rfl, hkeep, ?_⟩
  intro items
  have h : ∀ it, filterKeep defaultFilter it = true := by
    intro it
    rw [hkeep]
    refine ⟨?_, ?_, ?_, ?_⟩ <;> simp [defaultFilter]
  unfold filterItems
  induction items with
  | nil => rfl
  | cons a l ih => simp [List.filter, h a, ih]

/-! ## Determinism and ordering of the grouping -/

theorem not_mem_seen_of_mem_firstDedupAux :
    ∀ (l seen : List Int) (x : Int), x ∈ firstDedupAux l seen → x ∉ seen := by
  intro l
  induction l with
  | nil => intro seen x h; simp [firstDedupAux] at h
  | cons k rest ih =>
    intro seen x h hs
    simp only [firstDedupAux] at h
    by_cases hk : k ∈ seen
    · rw [if_pos hk] at h
      exact ih _ _ h hs
    · rw [if_neg hk] at h
      rcases List.mem_cons.mp h with h | h
      · exact hk (h ▸ hs)
      · exact ih _ _ h (List.mem_cons_of_mem _ hs)

theorem firstDedupAux_nodup : ∀ (l seen : List Int), (firstDedupAux l seen).Nodup := by
  intro l
  induction l with
  | nil => intro seen; simp [firstDedupAux]
  | cons k rest ih =>
    intro seen
    simp only [firstDedupAux]
    by_cases hk : k ∈ seen
    · rw [if_pos hk]; exact ih seen
    · rw [if_neg hk]
      refine List.nodup_cons.mpr ⟨?_, ih _⟩
      intro hmem
      exact not_mem_seen_of_mem_firstDedupAux _ _ _ hmem (List.mem_cons_self _ _)

theorem sortedKeysOf_pairwise_gt (items : List GItem) :
    List.Pairwise (fun a b : Int => b < a) (sortedKeysOf items) := by
  have htot : IsTotal Int (fun a b : Int => b ≤ a) := ⟨fun a b => le_total b a⟩
  have htrans : IsTrans Int (fun a b : Int => b ≤ a) := ⟨fun _ _ _ h1 h2 => le_trans h2 h1⟩
  have hsorted : List.Sorted (fun a b : Int => b ≤ a) (sortedKeysOf items) :=
    List.sorted_insertionSort _ _
  have hnodup : (sortedKeysOf items).Nodup :=
    ((List.perm_insertionSort (fun a b : Int => b ≤ a) (cycleKeysOf items)).nodup_iff).mpr
      (firstDedupAux_nodup _ _)
  exact (List.Pairwise.and hsorted hnodup).imp
    (fun h => lt_of_le_of_ne h.1 (fun hc => h.2 hc.symm))

theorem groupCyclesF_keys (fs : FilterState) (items : List GItem) :
    (groupCyclesF fs items).map ReleaseCycle.cycleKey = sortedKeysOf items := by
  unfold groupCyclesF
  rw [List.map_map]
  exact List.map_id'' (fun _ => rfl) _

/-- Claim C5: the parse-and-group pipeline is deterministic — parsing the
same text twice and grouping the same flat list twice under the same filter
state yield identical results — and the emitted cycles are sorted by
`cycleKey` strictly descending. -/
theorem claim5_determinism :
    (∀ text : String, parseChangelog text = parseChangelog text) ∧
    (∀ fs items, groupCyclesF fs items = groupCyclesF fs items) ∧
    (∀ fs items, List.Pairwise (fun a b : Int => b < a)
        ((groupCyclesF fs items).map ReleaseCycle.cycleKey)) := by
  refine ⟨fun _ => rfl, fun _ _ => rfl, ?_⟩
  intro fs items
  rw [groupCyclesF_keys]
  exact sortedKeysOf_pairwise_gt items

/-! ## Connector normalization: case lemmas and idempotence -/

theorem toNat_ofNat_valid (n : Nat) (h : n.isValidChar) : (Char.ofNat n).toNat = n := by
  simp only [Char.ofNat, dif_pos h]
  rfl

theorem charEq_of_toNat {a b : Char} (h : a.toNat = b.toNat) : a = b :=
  Char.eq_of_val_eq (UInt32.ext h)

theorem jsCharLower_toNat (c : Char) :
    (jsCharLower c).toNat =
      if 65 ≤ c.toNat ∧ c.toNat ≤ 90 then c.toNat + 32 else c.toNat := by
  unfold jsCharLower
  split_ifs with h
  · exact toNat_ofNat_valid _ (Or.inl (by omega))
  · rfl

theorem jsCharUpper_toNat (c : Char) :
    (jsCharUpper c).toNat =
      if 97 ≤ c.toNat ∧ c.toNat ≤ 122 then c.toNat - 32 else c.toNat := by
  unfold jsCharUpper
  split_ifs with h
  · exact toNat_ofNat_valid _ (Or.inl (by omega))
  · rfl

theorem jsCharLower_idem (c : Char) : jsCharLower (jsCharLower c) = jsCharLower c := by
  apply charEq_of_toNat
  rw [jsCharLower_toNat (jsCharLower c), jsCharLower_toNat c]
  split_ifs <;> omega

theorem jsCharLower_upper_lower (c : Char) :
    jsCharLower (jsCharUpper (jsCharLower c)) = jsCharLower c := by
  apply charEq_of_toNat
  rw [jsCharLower_toNat (jsCharUpper (jsCharLower c)), jsCharUpper_toNat (jsCharLower c),
    jsCharLower_toNat c]
  split_ifs <;> omega

theorem jsCharLower_space_iff (c : Char) : jsCharLower c = ' ' ↔ c = ' ' := by
  constructor
  · intro hc
    apply charEq_of_toNat
    have h1 : (jsCharLower c).toNat = (' ' : Char).toNat := by rw [hc]
    rw [jsCharLower_toNat c] at h1
    have h32 : (' ' : Char).toNat = 32 := rfl
    rw [h32] at h1
    rw [h32]
    split_ifs at h1 <;> omega
  · intro hc
    rw [hc]
    rfl

theorem map_joinChar (f : Char → Char) (sep : Char) :
    ∀ ws, List.map f (joinChar sep ws) = joinChar (f sep) (ws.map (List.map f)) := by
  intro ws
  induction ws with
  | nil => rfl
  | cons w ws2 ih =>
    cases ws2 with
    | nil => rfl
    | cons w2 ws3 =>
      show List.map f (w ++ sep :: joinChar sep (w2 :: ws3)) =
        List.map f w ++ f sep :: joinChar (f sep) (List.map (List.map f) (w2 :: ws3))
      rw [List.map_append, List.map_cons, ih]

theorem splitOnCharAux_map (f : Char → Char) (sep : Char)
    (hf : ∀ c, f c = sep ↔ c = sep) :
    ∀ (l acc : List Char),
      splitOnCharAux sep (l.map f) (acc.map f) =
        (splitOnCharAux sep l acc).map (List.map f) := by
  intro l
  induction l with
  | nil => intro acc; simp [splitOnCharAux, List.map_reverse]
  | cons c rest ih =>
    intro acc
    simp only [List.map_cons, splitOnCharAux]
    by_cases hc : c = sep
    · have hfc : f c = sep := (hf c).mpr hc
      have h0 := ih ([] : List Char)
      simp only [List.map_nil] at h0
      rw [if_pos hfc, if_pos hc]
      simp [h0, List.map_reverse]
    · have hfc : ¬ f c = sep := fun hx => hc ((hf c).mp hx)
      have h1 := ih (c :: acc)
      simp only [List.map_cons] at h1
      rw [if_neg hfc, if_neg hc, h1]

theorem splitOnChar_map (f : Char → Char) (sep : Char)
    (hf : ∀ c, f c = sep ↔ c = sep) (l : List Char) :
    splitOnChar sep (l.map f) = (splitOnChar sep l).map (List.map f) := by
  have := splitOnCharAux_map f sep hf l []
  simpa [splitOnChar] using this

theorem joinChar_cons_of_ne_nil (sep : Char) (w : List Char) {ws : List (List Char)}
    (h : ws ≠ []) : joinChar sep (w :: ws) = w ++ sep :: joinChar sep ws := by
  cases ws with
  | nil => exact absurd rfl h
  | cons w2 ws2 => rfl

theorem splitOnCharAux_ne_nil (sep : Char) :
    ∀ (l acc : List Char), splitOnCharAux sep l acc ≠ [] := by
  intro l
  induction l with
  | nil => intro acc; simp [splitOnCharAux]
  | cons c rest ih =>
    intro acc
    simp only [splitOnCharAux]
    by_cases hc : c = sep
    · rw [if_pos hc]; simp
    · rw [if_neg hc]; exact ih _

theorem joinChar_splitOnCharAux (sep : Char) :
    ∀ (l acc : List Char),
      joinChar sep (splitOnCharAux sep l acc) = acc.reverse ++ l := by
  intro l
  induction l with
  | nil => intro acc; simp [splitOnCharAux, joinChar]
  | cons c rest ih =>
    intro acc
    simp only [splitOnCharAux]
    by_cases hc : c = sep
    · rw [if_pos hc,
        joinChar_cons_of_ne_nil sep _ (splitOnCharAux_ne_nil sep rest [])]
      have h0 := ih ([] : List Char)
      simp only [List.reverse_nil, List.nil_append] at h0
      rw [h0, hc]
    · rw [if_neg hc, ih (c :: acc)]
      simp

theorem joinChar_splitOnChar (sep : Char) (l : List Char) :
    joinChar sep (splitOnChar sep l) = l := by
  have := joinChar_splitOnCharAux sep l []
  simpa [splitOnChar] using this

theorem map_jsCharLower_capitalizeWord (u : List Char) :
    List.map jsCharLower (capitalizeWord (u.map jsCharLower)) = u.map jsCharLower := by
  cases u with
  | nil => rfl
  | cons c cs =>
    simp only [List.map_cons, capitalizeWord, jsCharLower_upper_lower, List.map_map]
    congr 1
    exact List.map_congr_left (fun a _ => jsCharLower_idem a)

theorem map_jsCharLower_normalizeConnectorL (l : List Char) :
    (normalizeConnectorL l).map jsCharLower = l.map jsCharLower := by
  by_cases hl : l = []
  · simp [normalizeConnectorL, hl]
  · unfold normalizeConnectorL
    rw [if_neg hl]
    rw [map_joinChar]
    have hsp : jsCharLower ' ' = ' ' := rfl
    rw [hsp, List.map_map]
    rw [splitOnChar_map jsCharLower ' ' jsCharLower_space_iff l]
    have hptw : ∀ w ∈ (splitOnChar ' ' l).map (List.map jsCharLower),
        (List.map jsCharLower ∘ capitalizeWord) w = w := by
      intro w hw
      rcases List.mem_map.mp hw with ⟨u, _, hu⟩
      subst hu
      exact map_jsCharLower_capitalizeWord u
    rw [List.map_congr_left hptw, List.map_id']
    rw [← splitOnChar_map jsCharLower ' ' jsCharLower_space_iff l]
    exact joinChar_splitOnChar ' ' (l.map jsCharLower)

theorem normalizeConnectorL_of_ne_nil (l : List Char) (h : l ≠ []) :
    normalizeConnectorL l =
      joinChar ' ' ((splitOnChar ' ' (l.map jsCharLower)).map capitalizeWord) := by
  unfold normalizeConnectorL
  rw [if_neg h]

theorem normalizeConnectorL_idem (l : List Char) :
    normalizeConnectorL (normalizeConnectorL l) = normalizeConnectorL l := by
  by_cases hout : normalizeConnectorL l = []
  · rw [hout]
    rfl
  · have hl : l ≠ [] := by
      intro h
      rw [h] at hout
      exact hout rfl
    rw [normalizeConnectorL_of_ne_nil _ hout, map_jsCharLower_normalizeConnectorL,
      ← normalizeConnectorL_of_ne_nil l hl]

/-- Claim C8: connector normalization is idempotent and case-insensitive:
`normalize (normalize x) = normalize x` for every string, and `ADYEN`,
`adyen`, `Adyen` all normalize to `Adyen`. -/
theorem claim8_normalize_idempotent :
    (∀ x : String, normalizeConnector (normalizeConnector x) = normalizeConnector x) ∧
    normalizeConnector "ADYEN" = "Adyen" ∧
    normalizeConnector "adyen" = "Adyen" ∧
    normalizeConnector "Adyen" = "Adyen" := by
  refine ⟨?_, by decide, by decide, by decide⟩
  intro x
  unfold normalizeConnector
  congr 1
  exact normalizeConnectorL_idem x.data

/-! ## What the parser emits -/

theorem mkBullet_title (content : List Char) (d : String) (v : Option String) :
    (mkBullet content d v).title = String.mk (cleanTitleL content) := rfl

theorem stepTrimmed_cases (st : PState) (trimmed : List Char) :
    (∃ v, headerVersion trimmed = some v ∧ stepTrimmed st trimmed =
       { completed := pushCurrent st, current := some (newWeek (dateOfVersion v)),
         currentVersion := some (String.mk v) }) ∨
    stepTrimmed st trimmed = st ∨
    (∃ wk, st.current = some wk ∧
       cleanTitleL (jsTrim trimmed.tail) ≠ [] ∧
       stepTrimmed st trimmed = { st with current := some { wk with
         items := wk.items ++ [mkBullet (jsTrim trimmed.tail) wk.date st.currentVersion] } }) := by
  unfold stepTrimmed
  cases hv : headerVersion trimmed with
  | some v => exact Or.inl ⟨v, rfl, rfl⟩
  | none =>
    simp only []
    by_cases hd : trimmed.head? = some '-'
    · rw [if_pos hd]
      cases hcur : st.current with
      | none => exact Or.inr (Or.inl rfl)
      | some wk =>
        simp only []
        by_cases hc : jsTrim trimmed.tail = []
        · rw [if_pos hc]
          exact Or.inr (Or.inl rfl)
        · rw [if_neg hc]
          by_cases ht : (mkBullet (jsTrim trimmed.tail) wk.date st.currentVersion).title = ""
          · rw [if_pos ht]
            exact Or.inr (Or.inl rfl)
          · rw [if_neg ht]
            refine Or.inr (Or.inr ⟨wk, rfl, ?_, rfl⟩)
            intro hnil
            apply ht
            rw [mkBullet_title, hnil]
    · rw [if_neg hd]
      exact Or.inr (Or.inl rfl)

theorem stepTrimmed_itemsOK (st : PState) (trimmed : List Char)
    (h : stateItemsOK st) : stateItemsOK (stepTrimmed st trimmed) := by
  rcases stepTrimmed_cases st trimmed with ⟨v, _, heq⟩ | heq | ⟨wk0, hcur, hclean, heq⟩
  · rw [heq]
    intro wk hwk it hit
    rcases hwk with hwk | hwk
    · simp only [] at hwk
      unfold pushCurrent at hwk
      rcases List.mem_append.mp hwk with h1 | h1
      · exact h wk (Or.inl h1) it hit
      · cases hcur : st.current with
        | none => rw [hcur] at h1; simp at h1
        | some w0 =>
          rw [hcur] at h1
          simp only [Option.toList_some, List.mem_singleton] at h1
          subst h1
          exact h wk (Or.inr hcur) it hit
    · simp only [Option.some.injEq] at hwk
      rw [← hwk] at hit
      simp [newWeek] at hit
  · rw [heq]
    exact h
  · rw [heq]
    intro wk hwk it hit
    rcases hwk with hwk | hwk
    · exact h wk (Or.inl hwk) it hit
    · simp only [Option.some.injEq] at hwk
      rw [← hwk] at hit
      simp only [List.mem_append, List.mem_singleton] at hit
      rcases hit with hit | hit
      · exact h wk0 (Or.inr hcur) it hit
      · subst hit
        exact ⟨jsTrim trimmed.tail, wk0.date, st.currentVersion, rfl, hclean⟩

theorem parse_itemsOK (text : String) :
    ∀ wk ∈ parseChangelog text, ∀ it ∈ wk.items, emittedItemOK it := by
  have hfold : ∀ (lines : List (List Char)) (st : PState), stateItemsOK st →
      stateItemsOK (lines.foldl stepLine st) := by
    intro lines
    induction lines with
    | nil => intro st h; exact h
    | cons l ls ih => intro st h; exact ih _ (stepTrimmed_itemsOK _ _ h)
  intro wk hwk it hit
  have h0 : stateItemsOK initPState := by
    intro wk h
    rcases h with h | h
    · simp [initPState] at h
    · simp [initPState] at h
  have hfin := hfold (splitOnChar '\n' text.data) initPState h0
  unfold parseChangelog parseLines pushCurrent at hwk
  rcases List.mem_append.mp hwk with h1 | h1
  · exact hfin wk (Or.inl h1) it hit
  · cases hcur : (List.foldl stepLine initPState (splitOnChar '\n' text.data)).current with
    | none => rw [hcur] at h1; simp at h1
    | some w0 =>
      rw [hcur] at h1
      simp only [Option.toList_some, List.mem_singleton] at h1
      subst h1
      exact hfin wk (Or.inr hcur) it hit

/-! ## Connector emptiness -/

theorem capitalizeWord_length (w : List Char) :
    (capitalizeWord w).length = w.length := by
  cases w with
  | nil => rfl
  | cons c cs => rfl

theorem joinChar_map_length (sep : Char) (f : List Char → List Char)
    (hf : ∀ w, (f w).length = w.length) :
    ∀ ws, (joinChar sep (ws.map f)).length = (joinChar sep ws).length := by
  intro ws
  induction ws with
  | nil => rfl
  | cons w ws2 ih =>
    cases ws2 with
    | nil => exact hf w
    | cons w2 ws3 =>
      show (f w ++ sep :: joinChar sep (List.map f (w2 :: ws3))).length =
        (w ++ sep :: joinChar sep (w2 :: ws3)).length
      simp only [List.length_append, List.length_cons, hf w]
      rw [ih]

theorem normalizeConnectorL_length (l : List Char) :
    (normalizeConnectorL l).length = l.length := by
  by_cases hl : l = []
  · rw [hl]
    rfl
  · rw [normalizeConnectorL_of_ne_nil l hl,
      joinChar_map_length ' ' capitalizeWord capitalizeWord_length,
      joinChar_splitOnChar]
    simp

theorem normalizeConnectorL_ne_nil (l : List Char) (h : l ≠ []) :
    normalizeConnectorL l ≠ [] := by
  intro hc
  have hlen := normalizeConnectorL_length l
  rw [hc] at hlen
  exact h (List.length_eq_zero.mp hlen.symm)

theorem mkBullet_connector_eq (content : List Char) (d : String) (v : Option String) :
    (mkBullet content d v).connector =
      (match connectorScan content with
       | some run =>
         if jsTrim run = [] then none
         else some (String.mk (normalizeConnectorL (jsTrim run)))
       | none => none) := rfl

theorem mkBullet_connector (content : List Char) (d : String) (v : Option String) :
    (mkBullet content d v).connector = none ∨
    ∃ run, connectorScan content = some run ∧ jsTrim run ≠ [] ∧
      (mkBullet content d v).connector = some (String.mk (normalizeConnectorL (jsTrim run))) := by
  rw [mkBullet_connector_eq]
  cases hcs : connectorScan content with
  | none => exact Or.inl rfl
  | some run =>
    simp only []
    by_cases hrc : jsTrim run = []
    · rw [if_pos hrc]
      exact Or.inl rfl
    · rw [if_neg hrc]
      exact Or.inr ⟨run, rfl, hrc, rfl⟩

theorem mkBullet_connector_ne_empty (content : List Char) (d : String) (v : Option String) :
    (mkBullet content d v).connector ≠ some "" := by
  rcases mkBullet_connector content d v with h | ⟨run, _, hrc, h⟩
  · rw [h]
    simp
  · rw [h]
    intro hc
    simp only [Option.some.injEq] at hc
    have hdata : normalizeConnectorL (jsTrim run) = [] := by
      have := congrArg String.data hc
      simpa using this
    exact normalizeConnectorL_ne_nil _ hrc hdata

/-- Claim C10: an emitted item's connector is either absent or a nonempty
string; in particular a bracketed token whose interior is only whitespace
yields no connector. -/
theorem claim10_connector_nonempty :
    (∀ text wk it, wk ∈ parseChangelog text → it ∈ wk.items →
       it.connector ≠ some "") ∧
    (∀ content date ver, (mkBullet content date ver).connector = none ∨
       ∃ s, (mkBullet content date ver).connector = some s ∧ s ≠ "") := by
  constructor
  · intro text wk it hwk hit
    rcases parse_itemsOK text wk hwk it hit with ⟨content, d, v, heq, _⟩
    rw [heq]
    exact mkBullet_connector_ne_empty content d v
  · intro content date ver
    rcases mkBullet_connector content date ver with h | ⟨run, _, hrc, h⟩
    · exact Or.inl h
    · refine Or.inr ⟨String.mk (normalizeConnectorL (jsTrim run)), h, ?_⟩
      intro hc
      have hdata : normalizeConnectorL (jsTrim run) = [] := by
        have := congrArg String.data hc
        simpa using this
      exact normalizeConnectorL_ne_nil _ hrc hdata

/-- Witness for C10: the bullet `- [   ] fixed crash` (whitespace-only
bracket interior) parses to an item whose connector is `none`, hence not
`some ""` by the theorem. -/
theorem claim10_connector_nonempty_witness :
    ({ title := "fixed crash", rtype := RType.BugFix, connector := none,
       prNumber := none, prUrl := none, originalDate := "2026-01-07",
       version := some "2026.1.7.0" } : ReleaseItem).connector ≠ some "" :=
  claim10_connector_nonempty.1 "## [2026.1.7.0]\n- [   ] fixed crash"
    { id := "2026-01-07", date := "2026-01-07", headline := "Release 2026-01-07",
      items := [{ title := "fixed crash", rtype := RType.BugFix, connector := none,
                  prNumber := none, prUrl := none, originalDate := "2026-01-07",
                  version := some "2026.1.7.0" }] }
    _ (by decide) (by decide)

/-! ## Error propagation and absorption -/

/-- Claim C7: only a fetch failure yields an error from the endpoint; a
non-matching header-like or prose line, a bullet before any header, and a
bullet whose cleaned title is empty are all absorbed — the loop state is
unchanged and parsing of the remaining lines continues as if the line were
absent. -/
theorem claim7_error_absorption :
    (getReleaseNotes .failure = .error "Failed to load data") ∧
    (∀ t, getReleaseNotes (.success t) = .ok (parseChangelog t)) ∧
    (∀ st line, headerVersion (jsTrim line) = none → (jsTrim line).head? ≠ some '-' →
       stepLine st line = st) ∧
    (∀ st line, headerVersion (jsTrim line) = none → st.current = none →
       stepLine st line = st) ∧
    (∀ st line, headerVersion (jsTrim line) = none →
       cleanTitleL (jsTrim (jsTrim line).tail) = [] → stepLine st line = st) ∧
    (∀ (pre post : List (List Char)) (line : List Char),
       (∀ st, stepLine st line = st) →
       parseLines (pre ++ line :: post) = parseLines (pre ++ post)) := by
  refine ⟨rfl, fun _ => rfl, ?_, ?_, ?_, ?_⟩
  · intro st line h1 h2
    show stepTrimmed st (jsTrim line) = st
    unfold stepTrimmed
    rw [h1]
    simp only []
    rw [if_neg h2]
  · intro st line h1 h2
    show stepTrimmed st (jsTrim line) = st
    unfold stepTrimmed
    rw [h1]
    simp only []
    by_cases hd : (jsTrim line).head? = some '-'
    · rw [if_pos hd, h2]
    · rw [if_neg hd]
  · intro st line h1 h2
    show stepTrimmed st (jsTrim line) = st
    unfold stepTrimmed
    rw [h1]
    simp only []
    by_cases hd : (jsTrim line).head? = some '-'
    · rw [if_pos hd]
      cases hcur : st.current with
      | none => rfl
      | some wk =>
        simp only []
        by_cases hc : jsTrim (jsTrim line).tail = []
        · rw [if_pos hc]
        · rw [if_neg hc]
          have ht : (mkBullet (jsTrim (jsTrim line).tail) wk.date st.currentVersion).title = "" := by
            rw [mkBullet_title, h2]
          rw [if_pos ht]
    · rw [if_neg hd]
  · intro pre post line h
    unfold parseLines
    rw [List.foldl_append, List.foldl_append, List.foldl_cons, h _]

/-- Witness for C7 at concrete inputs: a malformed `###` header line, an
orphan bullet before any header, and a noise-only bullet `- ****` are each
absorbed, and a skipped absorbed line leaves a two-line parse unchanged. -/
theorem claim7_error_absorption_witness :
    stepLine initPState "### release notes".data = initPState ∧
    stepLine initPState "- orphan bullet".data = initPState ∧
    stepLine { completed := [], current := some (newWeek "2026-01-07"),
               currentVersion := some "2026.1.7.0" } "- ****".data =
      { completed := [], current := some (newWeek "2026-01-07"),
        currentVersion := some "2026.1.7.0" } ∧
    parseLines ["## [2026.1.7.0]".data, "- ****".data, "- real fix".data] =
      parseLines ["## [2026.1.7.0]".data, "- real fix".data] :=
  ⟨claim7_error_absorption.2.2.1 initPState "### release notes".data
      (by decide) (by decide),
   claim7_error_absorption.2.2.2.1 initPState "- orphan bullet".data
      (by decide) (by decide),
   claim7_error_absorption.2.2.2.2.1 _ "- ****".data (by decide) (by decide),
   claim7_error_absorption.2.2.2.2.2 ["## [2026.1.7.0]".data] ["- real fix".data]
      "- ****".data
      (fun st => claim7_error_absorption.2.2.2.2.1 st "- ****".data
        (by decide) (by decide))⟩

/-! ## Lexicographic string comparison: order facts -/

theorem lexLt_irrefl : ∀ (a : List Char), lexLt a a = false := by
  intro a
  induction a with
  | nil => rfl
  | cons a1 as ih =>
    simp only [lexLt]
    rw [if_neg (by omega), if_neg (by omega)]
    exact ih

theorem lexLt_trans (a : List Char) : ∀ (b c : List Char),
    lexLt a b = true → lexLt b c = true → lexLt a c = true := by
  induction a with
  | nil =>
    intro b c h1 h2
    cases c with
    | nil =>
      cases b with
      | nil => simp [lexLt] at h1
      | cons b1 bs => simp [lexLt] at h2
    | cons c1 cs => rfl
  | cons a1 as ih =>
    intro b c h1 h2
    cases b with
    | nil => simp [lexLt] at h1
    | cons b1 bs =>
      cases c with
      | nil => simp [lexLt] at h2
      | cons c1 cs =>
        simp only [lexLt] at h1 h2 ⊢
        split_ifs at h1 h2 ⊢ <;>
          first
            | rfl
            | omega
            | exact ih bs cs h1 h2
            | simp at h1
            | simp at h2

theorem lexLt_conn : ∀ (a b : List Char),
    lexLt a b = false → lexLt b a = false → a = b := by
  intro a
  induction a with
  | nil =>
    intro b h1 h2
    cases b with
    | nil => rfl
    | cons b1 bs => simp [lexLt] at h1
  | cons a1 as ih =>
    intro b h1 h2
    cases b with
    | nil => simp [lexLt] at h2
    | cons b1 bs =>
      simp only [lexLt] at h1 h2
      split_ifs at h1 h2 <;>
        first
          | simp at h1
          | simp at h2
          | (rename_i hx hy
             exact congrArg₂ List.cons (charEq_of_toNat (by omega)) (ih bs h1 h2))

theorem lexLt_false_trans (w u v : List Char) (h1 : lexLt u w = false)
    (h2 : lexLt v u = false) : lexLt v w = false := by
  by_contra hc
  have hvw : lexLt v w = true := by
    cases hx : lexLt v w with
    | true => rfl
    | false => exact absurd hx hc
  by_cases h3 : lexLt w u = true
  · have := lexLt_trans v w u hvw h3
    rw [this] at h2
    exact Bool.noConfusion h2
  · have hwu : lexLt w u = false := by
      cases hx : lexLt w u with
      | true => exact absurd hx h3
      | false => rfl
    have : w = u := lexLt_conn w u hwu h1
    rw [this] at hvw
    rw [hvw] at h2
    exact Bool.noConfusion h2

/-! ## The `versions` accumulation computes the maximum -/

theorem filterItems_default (items : List GItem) :
    filterItems defaultFilter items = items := by
  unfold filterItems
  induction items with
  | nil => rfl
  | cons a l ih =>
    have h : filterKeep defaultFilter a = true := by
      unfold filterKeep defaultFilter
      simp
    simp [List.filter, h, ih]

theorem versionsFor_eq_members (items : List GItem) (k : Int) :
    versionsFor items k = (membersOf items k).foldl versionsStep none := by
  unfold versionsFor membersOf
  generalize (none : Option String) = acc
  induction items generalizing acc with
  | nil => rfl
  | cons it l ih =>
    simp only [List.foldl_cons, List.filter_cons]
    by_cases h : getCycleIdDay it.originalDate = k
    · simp only [h, decide_true_eq_true]
      simp only [if_pos, List.foldl_cons]
      exact ih _
    · have hd : decide (getCycleIdDay it.originalDate = k) = false := by simp [h]
      rw [if_neg h, hd]
      simp only [Bool.false_eq_true, if_false]
      exact ih _

theorem versionsStep_none_iff (acc : Option String) (it : GItem)
    (h : it.version ≠ some "") :
    versionsStep acc it = none ↔ acc = none ∧ it.version = none := by
  unfold versionsStep
  cases hv : it.version with
  | none => simp [versionsUpd]
  | some v =>
    have hne : v ≠ "" := by
      intro hc
      exact h (by rw [hv, hc])
    cases acc with
    | none => simp [versionsUpd, hne]
    | some w =>
      simp only [versionsUpd, if_neg hne]
      constructor
      · intro hx
        split_ifs at hx <;> exact Option.noConfusion hx
      · rintro ⟨hx, _⟩
        exact Option.noConfusion hx

theorem versionsFoldl_none : ∀ (l : List GItem) (acc : Option String),
    (∀ it ∈ l, it.version ≠ some "") →
    (l.foldl versionsStep acc = none ↔ acc = none ∧ ∀ it ∈ l, it.version = none) := by
  intro l
  induction l with
  | nil => intro acc h; simp
  | cons it l ih =>
    intro acc h
    rw [List.foldl_cons, ih _ (fun x hx => h x (List.mem_cons_of_mem _ hx)),
      versionsStep_none_iff acc it (h it (List.mem_cons_self _ _))]
    constructor
    · rintro ⟨⟨h1, h2⟩, h3⟩
      exact ⟨h1, fun x hx => by
        rcases List.mem_cons.mp hx with hx | hx
        · rw [hx]; exact h2
        · exact h3 x hx⟩
    · rintro ⟨h1, h2⟩
      exact ⟨⟨h1, h2 it (List.mem_cons_self _ _)⟩,
        fun x hx => h2 x (List.mem_cons_of_mem _ hx)⟩

theorem versionsStep_some (acc : Option String) (it : GItem) (v : String)
    (h : versionsStep acc it = some v) :
    acc = some v ∨ it.version = some v := by
  unfold versionsStep at h
  cases hv : it.version with
  | none =>
    rw [hv] at h
    simp only [versionsUpd] at h
    exact Or.inl h
  | some u =>
    rw [hv] at h
    cases acc with
    | none =>
      simp only [versionsUpd] at h
      by_cases hu : u = ""
      · rw [if_pos hu] at h; exact Option.noConfusion h
      · rw [if_neg hu] at h
        rw [Option.some.injEq] at h
        exact Or.inr (by rw [h])
    | some w =>
      simp only [versionsUpd] at h
      by_cases hu : u = ""
      · rw [if_pos hu] at h; exact Or.inl h
      · rw [if_neg hu] at h
        by_cases hlt : lexLt w.data u.data = true
        · rw [if_pos hlt] at h
          exact Or.inr h
        · rw [if_neg hlt] at h
          exact Or.inl h

theorem versionsFoldl_mem : ∀ (l : List GItem) (acc : Option String) (v : String),
    l.foldl versionsStep acc = some v →
    acc = some v ∨ ∃ it ∈ l, it.version = some v := by
  intro l
  induction l with
  | nil =>
    intro acc v h
    exact Or.inl h
  | cons it l ih =>
    intro acc v h
    rw [List.foldl_cons] at h
    rcases ih _ v h with h1 | ⟨x, hx, hvx⟩
    · rcases versionsStep_some acc it v h1 with h2 | h2
      · exact Or.inl h2
      · exact Or.inr ⟨it, List.mem_cons_self _ _, h2⟩
    · exact Or.inr ⟨x, List.mem_cons_of_mem _ hx, hvx⟩

theorem versionsStep_ub (acc : Option String) (it : GItem) (w : String)
    (hv : it.version = some w) (hw : w ≠ "") :
    ∃ u, versionsStep acc it = some u ∧ lexLt u.data w.data = false := by
  unfold versionsStep
  rw [hv]
  cases acc with
  | none =>
    simp only [versionsUpd]
    rw [if_neg hw]
    exact ⟨w, rfl, lexLt_irrefl _⟩
  | some a =>
    simp only [versionsUpd]
    rw [if_neg hw]
    by_cases hlt : lexLt a.data w.data = true
    · rw [if_pos hlt]
      exact ⟨w, rfl, lexLt_irrefl _⟩
    · rw [if_neg hlt]
      refine ⟨a, rfl, ?_⟩
      cases hx : lexLt a.data w.data with
      | false => rfl
      | true => exact absurd hx hlt

theorem versionsStep_mono (acc : Option String) (it : GItem) (a : String)
    (ha : acc = some a) :
    ∃ u, versionsStep acc it = some u ∧ lexLt u.data a.data = false := by
  subst ha
  unfold versionsStep
  cases hv : it.version with
  | none => exact ⟨a, rfl, lexLt_irrefl _⟩
  | some w =>
    simp only [versionsUpd]
    by_cases hw : w = ""
    · rw [if_pos hw]
      exact ⟨a, rfl, lexLt_irrefl _⟩
    · rw [if_neg hw]
      by_cases hlt : lexLt a.data w.data = true
      · rw [if_pos hlt]
        refine ⟨w, rfl, ?_⟩
        cases hx : lexLt w.data a.data with
        | false => rfl
        | true =>
          have := lexLt_trans _ _ _ hlt hx
          rw [lexLt_irrefl] at this
          exact Bool.noConfusion this
      · rw [if_neg hlt]
        exact ⟨a, rfl, lexLt_irrefl _⟩

theorem versionsFoldl_ub : ∀ (l : List GItem) (acc : Option String) (v : String),
    (∀ it ∈ l, it.version ≠ some "") →
    l.foldl versionsStep acc = some v →
    (∀ w, acc = some w → lexLt v.data w.data = false) ∧
    (∀ it ∈ l, ∀ w, it.version = some w → lexLt v.data w.data = false) := by
  intro l
  induction l with
  | nil =>
    intro acc v _ h
    refine ⟨?_, by simp⟩
    intro w hw
    rw [hw] at h
    simp only [List.foldl_nil, Option.some.injEq] at h
    rw [← h]
    exact lexLt_irrefl _
  | cons it l ih =>
    intro acc v hno h
    rw [List.foldl_cons] at h
    rcases ih _ v (fun x hx => hno x (List.mem_cons_of_mem _ hx)) h with ⟨hacc, hmem⟩
    constructor
    · intro w hw
      rcases versionsStep_mono acc it w hw with ⟨u, hu, huw⟩
      exact lexLt_false_trans _ _ _ huw (hacc u hu)
    · intro x hx w hvx
      rcases List.mem_cons.mp hx with hx | hx
      · subst hx
        have hwne : w ≠ "" := by
          intro hc
          exact hno x (List.mem_cons_self _ _) (by rw [hvx, hc])
        rcases versionsStep_ub acc x w hvx hwne with ⟨u, hu, huw⟩
        exact lexLt_false_trans _ _ _ huw (hacc u hu)
      · exact hmem x hx w hvx

/-- Claim C4: a cycle's `releaseVersion` is the lexicographically greatest
version string carried by its member items (JavaScript string `>` is
`lexLt`), or `none` when no member carries a version; members with versions
`2026.1.7.0`, `2026.1.7.2`, `2026.1.5.0` give `2026.1.7.2`. -/
theorem claim4_version_max :
    (∀ items c, c ∈ groupCycles items →
      (∀ it ∈ c.items, it.version ≠ some "") →
      ((c.releaseVersion = none ↔ ∀ it ∈ c.items, it.version = none) ∧
       (∀ v, c.releaseVersion = some v →
          (∃ it ∈ c.items, it.version = some v) ∧
          (∀ it ∈ c.items, ∀ w, it.version = some w →
            lexLt v.data w.data = false)))) ∧
    (groupCycles
      [⟨0, .Feature, none, some "2026.1.7.0"⟩,
       ⟨0, .Feature, none, some "2026.1.7.2"⟩,
       ⟨0, .Feature, none, some "2026.1.5.0"⟩]).map ReleaseCycle.releaseVersion =
      [some "2026.1.7.2"] := by
  refine ⟨?_, by decide⟩
  intro items c hc hne
  rcases List.mem_map.mp hc with ⟨k, _, hck⟩
  have hitems : c.items = membersOf items k := by
    rw [← hck]
    exact filterItems_default _
  have hrel : c.releaseVersion = releaseVersionFor items k := by rw [← hck]
  rw [hitems] at hne ⊢
  rw [hrel]
  have hne' : ∀ it ∈ membersOf items k, it.version ≠ some "" := hne
  cases hfold : (membersOf items k).foldl versionsStep none with
  | none =>
    have h1 : releaseVersionFor items k = none := by
      unfold releaseVersionFor
      rw [versionsFor_eq_members, hfold]
    rw [h1]
    constructor
    · constructor
      · intro _
        exact ((versionsFoldl_none _ none hne').mp hfold).2
      · intro _
        rfl
    · intro v hv
      exact absurd hv (by simp)
  | some v =>
    have hvne : v ≠ "" := by
      rcases versionsFoldl_mem _ _ _ hfold with h | ⟨it, hit, hver⟩
      · exact Option.noConfusion h
      · intro hc0
        exact hne' it hit (by rw [hver, hc0])
    have h1 : releaseVersionFor items k = some v := by
      unfold releaseVersionFor
      rw [versionsFor_eq_members, hfold]
      simp only []
      rw [if_neg hvne]
    rw [h1]
    constructor
    · constructor
      · intro h
        exact Option.noConfusion h
      · intro hall
        have := (versionsFoldl_none _ none hne').mpr ⟨rfl, hall⟩
        rw [hfold] at this
        exact Option.noConfusion this
    · intro v' hv'
      rw [Option.some.injEq] at hv'
      subst hv'
      refine ⟨?_, ?_⟩
      · rcases versionsFoldl_mem _ _ _ hfold with h | h
        · exact Option.noConfusion h
        · exact h
      · exact (versionsFoldl_ub _ none v hne' hfold).2

/-- Witness for C4: the three-version example cycle contains a member
carrying the maximal version `2026.1.7.2`. -/
theorem claim4_version_max_witness :
    ∃ it ∈ ({ cycleKey := 6, releaseVersion := some "2026.1.7.2",
              items := [⟨0, .Feature, none, some "2026.1.7.0"⟩,
                        ⟨0, .Feature, none, some "2026.1.7.2"⟩,
                        ⟨0, .Feature, none, some "2026.1.5.0"⟩] } : ReleaseCycle).items,
      it.version = some "2026.1.7.2" :=
  ((claim4_version_max.1
      [⟨0, .Feature, none, some "2026.1.7.0"⟩,
       ⟨0, .Feature, none, some "2026.1.7.2"⟩,
       ⟨0, .Feature, none, some "2026.1.5.0"⟩]
      { cycleKey := 6, releaseVersion := some "2026.1.7.2",
        items := [⟨0, .Feature, none, some "2026.1.7.0"⟩,
                  ⟨0, .Feature, none, some "2026.1.7.2"⟩,
                  ⟨0, .Feature, none, some "2026.1.5.0"⟩] }
      (by decide) (by decide)).2 "2026.1.7.2" rfl).1

/-! ## Bracket-token freeness of cleaned titles -/

theorem brSafe_cons_ne (c : Char) (rest : List Char) (h : c ≠ '[') :
    brSafe (c :: rest) = brSafe rest := by
  cases rest with
  | nil => rfl
  | cons d rest2 =>
    simp only [brSafe]
    rw [if_neg h]

theorem brSafe_pair (rest2 : List Char) :
    brSafe ('[' :: ']' :: rest2) = brSafe rest2 := by
  simp [brSafe]

theorem brSafe_dangling (d : Char) (rest2 : List Char) (hd : d ≠ ']') :
    brSafe ('[' :: d :: rest2) = !(decide (']' ∈ rest2)) := by
  simp [brSafe, hd]

theorem brSafe_of_no_rbracket : ∀ (l : List Char), (']' ∉ l) → brSafe l = true := by
  intro l
  induction l with
  | nil => intro _; rfl
  | cons c rest ih =>
    intro h
    by_cases hc : c = '['
    · subst hc
      cases rest with
      | nil => rfl
      | cons d rest2 =>
        have hd : d ≠ ']' := by
          intro hx
          exact h (by rw [hx]; simp)
        rw [brSafe_dangling d rest2 hd]
        simp only [Bool.not_eq_true', decide_eq_false_iff_not]
        intro hm
        exact h (by simp [hm])
    · rw [brSafe_cons_ne c rest hc]
      exact ih (fun hm => h (List.mem_cons_of_mem _ hm))

theorem brSafe_dropWhile (p : Char → Bool) (hp : ∀ c, p c = true → c ≠ '[') :
    ∀ l, brSafe l = true → brSafe (l.dropWhile p) = true := by
  intro l
  induction l with
  | nil => intro h; exact h
  | cons c rest ih =>
    intro h
    rw [List.dropWhile_cons]
    by_cases hc : p c = true
    · rw [if_pos hc]
      apply ih
      rw [brSafe_cons_ne c rest (hp c hc)] at h
      exact h
    · rw [if_neg hc]
      exact h

theorem brSafe_append_invert : ∀ (l1 l2 : List Char),
    (∀ c ∈ l2, c ≠ '[' ∧ c ≠ ']') → brSafe (l1 ++ l2) = true → brSafe l1 = true
  | [], _, _, _ => rfl
  | c :: rest, l2, h2, h => by
    by_cases hc : c = '['
    · subst hc
      cases rest with
      | nil => rfl
      | cons d rest2 =>
        by_cases hd : d = ']'
        · subst hd
          rw [brSafe_pair]
          rw [List.cons_append, List.cons_append, brSafe_pair] at h
          exact brSafe_append_invert rest2 l2 h2 h
        · rw [brSafe_dangling d rest2 hd]
          rw [List.cons_append, List.cons_append, brSafe_dangling d _ hd] at h
          simp only [Bool.not_eq_true', decide_eq_false_iff_not] at h ⊢
          intro hm
          exact h (List.mem_append.mpr (Or.inl hm))
    · rw [brSafe_cons_ne c rest hc]
      rw [List.cons_append, brSafe_cons_ne c _ hc] at h
      exact brSafe_append_invert rest l2 h2 h

theorem brSafe_dropTrailing (q : Char → Bool)
    (hq : ∀ c, q c = true → c ≠ '[' ∧ c ≠ ']') (l : List Char)
    (h : brSafe l = true) : brSafe (dropTrailing q l) = true := by
  have hdecomp : dropTrailing q l ++ (l.reverse.takeWhile q).reverse = l := by
    unfold dropTrailing
    rw [← List.reverse_append, List.takeWhile_append_dropWhile, List.reverse_reverse]
  apply brSafe_append_invert (dropTrailing q l) ((l.reverse.takeWhile q).reverse)
  · intro c hc
    have hmem : c ∈ l.reverse.takeWhile q := by
      rw [List.mem_reverse] at hc
      exact hc
    exact hq c (List.mem_takeWhile_imp hmem)
  · rw [hdecomp]
    exact h

theorem globalReplaceAux_nil (try_ : List Char → Option (List Char))
    (rep : List Char) (fuel : Nat) : globalReplaceAux try_ rep fuel [] = [] := by
  cases fuel <;> rfl

theorem mem_globalReplaceAux (try_ : List Char → Option (List Char))
    (rep : List Char) (hs : ∀ l r, try_ l = some r → r <:+ l) :
    ∀ (fuel : Nat) (l : List Char) (x : Char),
      x ∈ globalReplaceAux try_ rep fuel l → x ∈ l ∨ x ∈ rep := by
  intro fuel
  induction fuel with
  | zero =>
    intro l x h
    cases l with
    | nil => rw [globalReplaceAux_nil] at h; exact absurd h (List.not_mem_nil x)
    | cons c rest => exact Or.inl h
  | succ fuel ih =>
    intro l x h
    cases l with
    | nil => rw [globalReplaceAux_nil] at h; exact absurd h (List.not_mem_nil x)
    | cons c rest =>
      have hshow : globalReplaceAux try_ rep (fuel + 1) (c :: rest) =
          (match try_ (c :: rest) with
           | some r => rep ++ globalReplaceAux try_ rep fuel r
           | none => c :: globalReplaceAux try_ rep fuel rest) := rfl
      rw [hshow] at h
      cases htry : try_ (c :: rest) with
      | some r =>
        rw [htry] at h
        simp only [] at h
        rcases List.mem_append.mp h with h1 | h1
        · exact Or.inr h1
        · rcases ih r x h1 with h2 | h2
          · exact Or.inl ((hs _ _ htry).subset h2)
          · exact Or.inr h2
      | none =>
        rw [htry] at h
        simp only [] at h
        rcases List.mem_cons.mp h with h1 | h1
        · exact Or.inl (by rw [h1]; exact List.mem_cons_self _ _)
        · rcases ih rest x h1 with h2 | h2
          · exact Or.inl (List.mem_cons_of_mem _ h2)
          · exact Or.inr h2

theorem bracketTryAt_suffix : ∀ (l r : List Char), bracketTryAt l = some r →
    r <:+ l ∧ r.length + 2 ≤ l.length := by
  intro l r h
  cases l with
  | nil => exact Option.noConfusion h
  | cons c rest =>
    simp only [bracketTryAt] at h
    by_cases hc : c = '['
    · rw [if_pos hc] at h
      by_cases hrun : rest.takeWhile (fun x => !(x = ']')) = []
      · rw [if_pos hrun] at h
        exact Option.noConfusion h
      · rw [if_neg hrun] at h
        cases hd : rest.dropWhile (fun x => !(x = ']')) with
        | nil =>
          rw [hd] at h
          exact Option.noConfusion h
        | cons d r2 =>
          rw [hd] at h
          simp only [] at h
          by_cases hdd : d = ']'
          · rw [if_pos hdd] at h
            rw [Option.some.injEq] at h
            rw [← h]
            constructor
            · have h1 : d :: r2 <:+ rest := by
                rw [← hd]
                exact List.dropWhile_suffix _
              have h2 : r2 <:+ d :: r2 := List.suffix_cons d r2
              exact (h2.trans h1).trans (List.suffix_cons c rest)
            · have hlen := congrArg List.length
                (List.takeWhile_append_dropWhile (fun x => !(x = ']')) rest)
              rw [hd] at hlen
              simp only [List.length_append, List.length_cons] at hlen
              have hpos : 0 < (rest.takeWhile (fun x => !(x = ']'))).length :=
                List.length_pos.mpr hrun
              simp only [List.length_cons]
              omega
          · rw [if_neg hdd] at h
            exact Option.noConfusion h
    · rw [if_neg hc] at h
      exact Option.noConfusion h

theorem wsRunTryAt_suffix : ∀ (l r : List Char), wsRunTryAt l = some r →
    r <:+ l ∧ r.length + 1 ≤ l.length := by
  intro l r h
  cases l with
  | nil => exact Option.noConfusion h
  | cons c rest =>
    cases rest with
    | nil => exact Option.noConfusion h
    | cons d rest2 =>
      simp only [wsRunTryAt] at h
      by_cases hsp : jsSpace c = true ∧ jsSpace d = true
      · rw [if_pos (by simp [hsp.1, hsp.2])] at h
        rw [Option.some.injEq] at h
        subst h
        constructor
        · exact (List.dropWhile_suffix jsSpace).trans (List.suffix_cons c (d :: rest2))
        · have := (List.dropWhile_suffix jsSpace (l := d :: rest2)).length_le
          simp only [List.length_cons] at this ⊢
          omega
      · have hcond : ¬((jsSpace c && jsSpace d) = true) := by
          intro hx
          simp only [Bool.and_eq_true] at hx
          exact hsp hx
        rw [if_neg hcond] at h
        exact Option.noConfusion h

theorem dropWhile_head_false (p : Char → Bool) :
    ∀ (l : List Char) (d : Char) (r : List Char), l.dropWhile p = d :: r → p d = false := by
  intro l
  induction l with
  | nil => intro d r h; exact absurd h (by simp)
  | cons e l2 ih =>
    intro d r h
    rw [List.dropWhile_cons] at h
    by_cases he : p e = true
    · rw [if_pos he] at h
      exact ih d r h
    · rw [if_neg he] at h
      rw [List.cons.injEq] at h
      cases hpe : p e with
      | true => exact absurd hpe he
      | false => rw [← h.1]; exact hpe

theorem removeBrackets_brSafe : ∀ (fuel : Nat) (l : List Char), l.length ≤ fuel →
    brSafe (globalReplaceAux bracketTryAt [] fuel l) = true := by
  intro fuel
  induction fuel using Nat.strong_induction_on with
  | _ fuel ih =>
    intro l hl
    cases l with
    | nil => rw [globalReplaceAux_nil]; rfl
    | cons c rest =>
      cases fuel with
      | zero => simp at hl
      | succ f =>
        have hshow : globalReplaceAux bracketTryAt [] (f + 1) (c :: rest) =
            (match bracketTryAt (c :: rest) with
             | some r => [] ++ globalReplaceAux bracketTryAt [] f r
             | none => c :: globalReplaceAux bracketTryAt [] f rest) := rfl
        rw [hshow]
        cases htry : bracketTryAt (c :: rest) with
        | some r =>
          simp only [List.nil_append]
          rcases bracketTryAt_suffix _ _ htry with ⟨_, hlen⟩
          apply ih f (Nat.lt_succ_self f) r
          simp only [List.length_cons] at hl hlen
          omega
        | none =>
          simp only []
          by_cases hc : c = '['
          · subst hc
            cases rest with
            | nil =>
              rw [globalReplaceAux_nil]
              rfl
            | cons d rest2 =>
              by_cases hd : d = ']'
              · subst hd
                cases f with
                | zero =>
                  simp only [List.length_cons] at hl
                  omega
                | succ f2 =>
                  have hb : bracketTryAt (']' :: rest2) = none := by
                    simp [bracketTryAt]
                  have hshow2 : globalReplaceAux bracketTryAt [] (f2 + 1) (']' :: rest2) =
                      (match bracketTryAt (']' :: rest2) with
                       | some r => [] ++ globalReplaceAux bracketTryAt [] f2 r
                       | none => ']' :: globalReplaceAux bracketTryAt [] f2 rest2) := rfl
                  rw [hshow2, hb]
                  simp only []
                  rw [brSafe_pair]
                  apply ih f2 (by omega) rest2
                  simp only [List.length_cons] at hl
                  omega
              · have hnomem : ']' ∉ (d :: rest2) := by
                  cases hdrop : (d :: rest2).dropWhile (fun x => !(x = ']')) with
                  | nil =>
                    intro hm
                    have := List.dropWhile_eq_nil_iff.mp hdrop ']' hm
                    simp at this
                  | cons d2 r2 =>
                    exfalso
                    have hd2 : d2 = ']' := by
                      have := dropWhile_head_false (fun x => !(x = ']')) _ _ _ hdrop
                      simpa using this
                    have htw : (d :: rest2).takeWhile (fun x => !(x = ']')) ≠ [] := by
                      rw [List.takeWhile_cons]
                      rw [if_pos (by simp [hd])]
                      simp
                    have hsome : bracketTryAt ('[' :: d :: rest2) = some r2 := by
                      show (if ('[' : Char) = '[' then
                          (if (d :: rest2).takeWhile (fun x => !(x = ']')) = [] then none
                           else
                             match (d :: rest2).dropWhile (fun x => !(x = ']')) with
                             | [] => none
                             | d2 :: r2 => if d2 = ']' then some r2 else none)
                          else none) = some r2
                      rw [if_pos rfl, if_neg htw, hdrop]
                      simp only []
                      rw [if_pos hd2]
                    rw [hsome] at htry
                    exact Option.noConfusion htry
                have hmemX : ']' ∉ globalReplaceAux bracketTryAt [] f (d :: rest2) := by
                  intro hm
                  rcases mem_globalReplaceAux bracketTryAt []
                      (fun l r h => (bracketTryAt_suffix l r h).1) f _ _ hm with h1 | h1
                  · exact hnomem h1
                  · exact absurd h1 (List.not_mem_nil _)
                cases hX : globalReplaceAux bracketTryAt [] f (d :: rest2) with
                | nil => rfl
                | cons e X2 =>
                  rw [hX] at hmemX
                  have he : e ≠ ']' := by
                    intro hx
                    exact hmemX (by rw [hx]; exact List.mem_cons_self _ _)
                  rw [brSafe_dangling e X2 he]
                  simp only [Bool.not_eq_true', decide_eq_false_iff_not]
                  intro hm
                  exact hmemX (List.mem_cons_of_mem _ hm)
          · rw [brSafe_cons_ne c _ hc]
            apply ih f (Nat.lt_succ_self f) rest
            simp only [List.length_cons] at hl
            omega

theorem jsSpace_ne_lbracket (c : Char) (h : jsSpace c = true) : c ≠ '[' := by
  intro hx
  rw [hx] at h
  exact absurd h (by decide)

theorem jsSpace_ne_rbracket (c : Char) (h : jsSpace c = true) : c ≠ ']' := by
  intro hx
  rw [hx] at h
  exact absurd h (by decide)

theorem brSafe_filter (p : Char → Bool) (hp1 : p '[' = true) (hp2 : p ']' = true) :
    ∀ l, brSafe l = true → brSafe (l.filter p) = true
  | [], _ => rfl
  | [c], _ => by
    by_cases hpc : p c = true
    · have hf : List.filter p [c] = [c] := by simp [List.filter_cons, hpc]
      rw [hf]
      cases c
      rfl
    · have hf : List.filter p [c] = [] := by simp [List.filter_cons, hpc]
      rw [hf]
      rfl
  | c :: d :: rest2, h => by
    by_cases hc : c = '['
    · subst hc
      by_cases hd : d = ']'
      · subst hd
        rw [brSafe_pair] at h
        have hf : ('[' :: ']' :: rest2).filter p = '[' :: ']' :: rest2.filter p := by
          simp [List.filter_cons, hp1, hp2]
        rw [hf, brSafe_pair]
        exact brSafe_filter p hp1 hp2 rest2 h
      · rw [brSafe_dangling d rest2 hd] at h
        simp only [Bool.not_eq_true', decide_eq_false_iff_not] at h
        have hmm : ']' ∉ (d :: rest2).filter p := by
          intro hmem
          have := List.mem_of_mem_filter hmem
          rcases List.mem_cons.mp this with h1 | h1
          · exact hd h1.symm
          · exact h h1
        have hf : ('[' :: d :: rest2).filter p = '[' :: (d :: rest2).filter p := by
          simp [List.filter_cons, hp1]
        rw [hf]
        cases hX : (d :: rest2).filter p with
        | nil => rfl
        | cons e X2 =>
          rw [hX] at hmm
          have he : e ≠ ']' := by
            intro hx
            exact hmm (by rw [hx]; exact List.mem_cons_self _ _)
          rw [brSafe_dangling e X2 he]
          simp only [Bool.not_eq_true', decide_eq_false_iff_not]
          intro hm
          exact hmm (List.mem_cons_of_mem _ hm)
    · rw [brSafe_cons_ne c _ hc] at h
      by_cases hpc : p c = true
      · have hf : (c :: d :: rest2).filter p = c :: (d :: rest2).filter p := by
          simp [List.filter_cons, hpc]
        rw [hf]
        cases hX : (d :: rest2).filter p with
        | nil =>
          cases c
          rfl
        | cons e X2 =>
          rw [brSafe_cons_ne c _ hc, ← hX]
          exact brSafe_filter p hp1 hp2 (d :: rest2) h
      · have hf : (c :: d :: rest2).filter p = (d :: rest2).filter p := by
          simp [List.filter_cons, hpc]
        rw [hf]
        exact brSafe_filter p hp1 hp2 (d :: rest2) h

theorem collapseWS_brSafe : ∀ (fuel : Nat) (l : List Char), l.length ≤ fuel →
    brSafe l = true → brSafe (globalReplaceAux wsRunTryAt [' '] fuel l) = true := by
  intro fuel
  induction fuel using Nat.strong_induction_on with
  | _ fuel ih =>
    intro l hl h
    cases l with
    | nil => rw [globalReplaceAux_nil]; rfl
    | cons c rest =>
      cases fuel with
      | zero => simp at hl
      | succ f =>
        have hshow : globalReplaceAux wsRunTryAt [' '] (f + 1) (c :: rest) =
            (match wsRunTryAt (c :: rest) with
             | some r => [' '] ++ globalReplaceAux wsRunTryAt [' '] f r
             | none => c :: globalReplaceAux wsRunTryAt [' '] f rest) := rfl
        rw [hshow]
        cases htry : wsRunTryAt (c :: rest) with
        | some r =>
          show brSafe (' ' :: globalReplaceAux wsRunTryAt [' '] f r) = true
          rw [brSafe_cons_ne ' ' _ (by decide)]
          rcases wsRunTryAt_suffix _ _ htry with ⟨hsuf, hlen⟩
          have hcsp : jsSpace c = true := by
            cases rest with
            | nil => exact absurd htry (by simp [wsRunTryAt])
            | cons d rest2 =>
              simp only [wsRunTryAt] at htry
              by_cases hx : (jsSpace c && jsSpace d) = true
              · exact (Bool.and_eq_true _ _ ▸ hx).1
              · rw [if_neg hx] at htry
                exact Option.noConfusion htry
          have hbr : brSafe r = true := by
            cases rest with
            | nil => exact absurd htry (by simp [wsRunTryAt])
            | cons d rest2 =>
              simp only [wsRunTryAt] at htry
              by_cases hx : (jsSpace c && jsSpace d) = true
              · rw [if_pos hx] at htry
                rw [Option.some.injEq] at htry
                rw [← htry]
                apply brSafe_dropWhile jsSpace jsSpace_ne_lbracket
                rw [brSafe_cons_ne c _ (jsSpace_ne_lbracket c hcsp)] at h
                exact h
              · rw [if_neg hx] at htry
                exact Option.noConfusion htry
          apply ih f (Nat.lt_succ_self f) r ?hlen hbr
          case hlen =>
            simp only [List.length_cons] at hl hlen
            omega
        | none =>
          simp only []
          by_cases hc : c = '['
          · subst hc
            cases rest with
            | nil =>
              rw [globalReplaceAux_nil]
              rfl
            | cons d rest2 =>
              by_cases hd : d = ']'
              · subst hd
                rw [brSafe_pair] at h
                cases f with
                | zero =>
                  simp only [List.length_cons] at hl
                  omega
                | succ f2 =>
                  have hb : wsRunTryAt (']' :: rest2) = none := by
                    cases rest2 with
                    | nil => rfl
                    | cons e r3 =>
                      simp only [wsRunTryAt]
                      rw [if_neg (by simp [show jsSpace ']' = false from by decide])]
                  have hshow2 : globalReplaceAux wsRunTryAt [' '] (f2 + 1) (']' :: rest2) =
                      (match wsRunTryAt (']' :: rest2) with
                       | some r => [' '] ++ globalReplaceAux wsRunTryAt [' '] f2 r
                       | none => ']' :: globalReplaceAux wsRunTryAt [' '] f2 rest2) := rfl
                  rw [hshow2, hb]
                  simp only []
                  rw [brSafe_pair]
                  apply ih f2 (by omega) rest2 ?hlen2 h
                  case hlen2 =>
                    simp only [List.length_cons] at hl
                    omega
              · rw [brSafe_dangling d rest2 hd] at h
                simp only [Bool.not_eq_true', decide_eq_false_iff_not] at h
                have hnomem : ']' ∉ (d :: rest2) := by
                  intro hm
                  rcases List.mem_cons.mp hm with h1 | h1
                  · exact hd h1.symm
                  · exact h h1
                have hmemX : ']' ∉ globalReplaceAux wsRunTryAt [' '] f (d :: rest2) := by
                  intro hm
                  rcases mem_globalReplaceAux wsRunTryAt [' ']
                      (fun l r hx => (wsRunTryAt_suffix l r hx).1) f _ _ hm with h1 | h1
                  · exact hnomem h1
                  · simp at h1
                cases hX : globalReplaceAux wsRunTryAt [' '] f (d :: rest2) with
                | nil => rfl
                | cons e X2 =>
                  rw [hX] at hmemX
                  have he : e ≠ ']' := by
                    intro hx
                    exact hmemX (by rw [hx]; exact List.mem_cons_self _ _)
                  rw [brSafe_dangling e X2 he]
                  simp only [Bool.not_eq_true', decide_eq_false_iff_not]
                  intro hm
                  exact hmemX (List.mem_cons_of_mem _ hm)
          · rw [brSafe_cons_ne c _ hc] at h
            rw [brSafe_cons_ne c _ hc]
            apply ih f (Nat.lt_succ_self f) rest ?hlen3 h
            case hlen3 =>
              simp only [List.length_cons] at hl
              omega

theorem brSafe_no_token : ∀ (l : List Char), brSafe l = true →
    ∀ w, w ≠ [] → (∀ c ∈ w, c ≠ ']') → ¬ ('[' :: (w ++ [']'])) <:+: l
  | [], _, w, hw, hcw, hinf => by
    have hx := List.sublist_nil.mp hinf.sublist
    simp at hx
  | [c], _, w, hw, hcw, hinf => by
    have hlen := hinf.sublist.length_le
    have hpos : 0 < w.length := List.length_pos.mpr hw
    simp only [List.length_cons, List.length_append, List.length_singleton] at hlen
    omega
  | c :: d :: rest2, hsafe, w, hw, hcw, hinf => by
    by_cases hc : c = '['
    · subst hc
      by_cases hd : d = ']'
      · subst hd
        rw [brSafe_pair] at hsafe
        rcases List.infix_cons_iff.mp hinf with hpre | hinf2
        · rcases List.cons_prefix_cons.mp hpre with ⟨_, hpre2⟩
          cases w with
          | nil => exact hw rfl
          | cons w1 ws =>
            rw [List.cons_append] at hpre2
            rcases List.cons_prefix_cons.mp hpre2 with ⟨hw1, _⟩
            exact hcw w1 (List.mem_cons_self _ _) hw1
        · rcases List.infix_cons_iff.mp hinf2 with hpre | hinf3
          · rcases List.cons_prefix_cons.mp hpre with ⟨hx, _⟩
            exact absurd hx (by decide)
          · exact brSafe_no_token rest2 hsafe w hw hcw hinf3
      · rw [brSafe_dangling d rest2 hd] at hsafe
        simp only [Bool.not_eq_true', decide_eq_false_iff_not] at hsafe
        have hmem : (']' : Char) ∈ '[' :: (w ++ [']']) := by simp
        have hsub : (']' : Char) ∈ '[' :: d :: rest2 := hinf.subset hmem
        rcases List.mem_cons.mp hsub with h1 | h1
        · exact absurd h1.symm (by decide)
        · rcases List.mem_cons.mp h1 with h2 | h2
          · exact hd h2.symm
          · exact hsafe h2
    · rcases List.infix_cons_iff.mp hinf with hpre | hinf2
      · rcases List.cons_prefix_cons.mp hpre with ⟨hx, _⟩
        exact hc hx.symm
      · rw [brSafe_cons_ne c _ hc] at hsafe
        exact brSafe_no_token (d :: rest2) hsafe w hw hcw hinf2

theorem trimClassB_not_bracket (c : Char) (h : trimClassB c = true) :
    c ≠ '[' ∧ c ≠ ']' := by
  constructor
  · intro hx
    rw [hx] at h
    exact absurd h (by decide)
  · intro hx
    rw [hx] at h
    exact absurd h (by decide)

theorem claimTrim_sub (c : Char) (h : claimTrimClass c = true) : trimClassB c = true := by
  simp only [claimTrimClass, Bool.or_eq_true, decide_eq_true_eq] at h
  simp only [trimClassB, Bool.or_eq_true, decide_eq_true_eq]
  tauto

/-- The composition underlying `cleanTitleL`, with the `let` bindings
expanded. -/
theorem cleanTitleL_eq (raw : List Char) :
    cleanTitleL raw =
      dropTrailing trimClassB
        (jsTrim
          (globalReplace wsRunTryAt [' ']
            ((globalReplace bracketTryAt []
                (globalReplace doubleStarTryAt []
                  (globalReplace emptyParensTryAt []
                    (globalReplace parenUrlTryAt []
                      (globalReplace prLinkTryAt [] raw))))).filter
              (fun c => !(c = '`'))))) := rfl

theorem mem_dropTrailing (q : Char → Bool) (l : List Char) (x : Char)
    (h : x ∈ dropTrailing q l) : x ∈ l := by
  unfold dropTrailing at h
  rw [List.mem_reverse] at h
  have h2 : x ∈ l.reverse := (List.dropWhile_suffix q).subset h
  rw [List.mem_reverse] at h2
  exact h2

theorem cleanTitleL_no_backtick (raw : List Char) : '`' ∉ cleanTitleL raw := by
  intro h
  rw [cleanTitleL_eq] at h
  have h1 := mem_dropTrailing _ _ _ h
  unfold jsTrim at h1
  have h2 := mem_dropTrailing _ _ _ h1
  have h3 := (List.dropWhile_suffix jsSpace).subset h2
  unfold globalReplace at h3
  rcases mem_globalReplaceAux wsRunTryAt [' ']
      (fun l r hx => (wsRunTryAt_suffix l r hx).1) _ _ _ h3 with h4 | h4
  · have h5 := (List.mem_filter.mp h4).2
    simp at h5
  · simp at h4

theorem cleanTitleL_brSafe (raw : List Char) : brSafe (cleanTitleL raw) = true := by
  rw [cleanTitleL_eq]
  apply brSafe_dropTrailing trimClassB trimClassB_not_bracket
  unfold jsTrim
  apply brSafe_dropTrailing jsSpace
      (fun c h => ⟨jsSpace_ne_lbracket c h, jsSpace_ne_rbracket c h⟩)
  apply brSafe_dropWhile jsSpace jsSpace_ne_lbracket
  unfold globalReplace
  apply collapseWS_brSafe _ _ le_rfl
  apply brSafe_filter _ (by decide) (by decide)
  apply removeBrackets_brSafe _ _ le_rfl

theorem dropTrailing_getLast (q : Char → Bool) (l : List Char) (c : Char)
    (h : (dropTrailing q l).getLast? = some c) : q c = false := by
  unfold dropTrailing at h
  rw [List.getLast?_reverse] at h
  cases hd : l.reverse.dropWhile q with
  | nil =>
    rw [hd] at h
    exact Option.noConfusion h
  | cons d r =>
    rw [hd] at h
    simp only [List.head?_cons, Option.some.injEq] at h
    rw [← h]
    exact dropWhile_head_false q _ _ _ hd

theorem cleanTitleL_last (raw : List Char) (c : Char)
    (h : (cleanTitleL raw).getLast? = some c) : claimTrimClass c = false := by
  rw [cleanTitleL_eq] at h
  have h1 := dropTrailing_getLast trimClassB _ c h
  cases hx : claimTrimClass c with
  | false => rfl
  | true =>
    exfalso
    rw [claimTrim_sub c hx] at h1
    exact Bool.noConfusion h1

/-- Counterexample to claim C3 as stated: the bullet `- x*[y]*z` cleans to
the title `x**z`, which contains `**` — bracket removal (step 5) runs after
`**` removal (step 4) and can rejoin asterisks. -/
theorem claim3_counterexample :
    parseChangelog "## [2026.1.7.0]\n- x*[y]*z" =
      [{ id := "2026-01-07", date := "2026-01-07", headline := "Release 2026-01-07",
         items := [{ title := "x**z", rtype := RType.Feature,
                     connector := some "Y", prNumber := none, prUrl := none,
                     originalDate := "2026-01-07", version := some "2026.1.7.0" }] }] ∧
    ('*' :: '*' :: []) <:+: ("x**z".data) :=
  ⟨by decide, ⟨['x'], ['z'], by decide⟩⟩

/-- Claim C3 (amended): a bullet whose cleaned title is empty produces no
item; every emitted title is nonempty and contains no backticks, no
bracketed token (a `[`, a nonempty `]`-free interior, then `]`), and no
trailing character from the trim class `-:,;.` or whitespace. The emitted
title may, however, contain `**` when bracketed-token or backtick removal
rejoins asterisks, since `**` removal runs before those steps. -/
theorem claim3_title_hygiene :
    (∀ st line tl, jsTrim line = '-' :: tl → cleanTitleL (jsTrim tl) = [] →
       stepLine st line = st) ∧
    (∀ text wk it, wk ∈ parseChangelog text → it ∈ wk.items →
       it.title ≠ "" ∧
       '`' ∉ it.title.data ∧
       (∀ w, w ≠ [] → (∀ c ∈ w, c ≠ ']') →
          ¬ ('[' :: (w ++ [']'])) <:+: it.title.data) ∧
       (∀ c, it.title.data.getLast? = some c → claimTrimClass c = false)) := by
  constructor
  · intro st line tl htl hclean
    show stepTrimmed st (jsTrim line) = st
    rw [htl]
    have hv : headerVersion ('-' :: tl) = none := rfl
    unfold stepTrimmed
    rw [hv]
    simp only []
    rw [if_pos (show ('-' :: tl).head? = some '-' by rfl)]
    cases hcur : st.current with
    | none => rfl
    | some wk =>
      simp only [List.tail_cons]
      by_cases hcont : jsTrim tl = []
      · rw [if_pos hcont]
      · rw [if_neg hcont]
        have ht : (mkBullet (jsTrim tl) wk.date st.currentVersion).title = "" := by
          rw [mkBullet_title, hclean]
        rw [if_pos ht]
  · intro text wk it hwk hit
    rcases parse_itemsOK text wk hwk it hit with ⟨content, d, v, heq, hclean⟩
    have htitle : it.title.data = cleanTitleL content := by rw [heq, mkBullet_title]
    refine ⟨?_, ?_, ?_, ?_⟩
    · intro hx
      apply hclean
      rw [← htitle, hx]
    · rw [htitle]
      exact cleanTitleL_no_backtick content
    · intro w hw hcw
      rw [htitle]
      exact brSafe_no_token _ (cleanTitleL_brSafe content) w hw hcw
    · intro c hc
      rw [htitle] at hc
      exact cleanTitleL_last content c hc

set_option maxHeartbeats 2000000 in
/-- Witness for C3 at concrete inputs: a noise-only bullet is dropped, and
the item of the end-to-end example has a nonempty, backtick-free title with
no bracketed token and no trailing trim-class character. -/
theorem claim3_title_hygiene_witness :
    stepLine initPState "- ****".data = initPState ∧
    (({ title := "Added support for installments", rtype := RType.Feature,
        connector := some "Adyen", prNumber := some "4821",
        prUrl := some "https://github.com/juspay/hyperswitch/pull/4821",
        originalDate := "2026-01-07", version := some "2026.1.7.0" } :
       ReleaseItem).title ≠ "" ∧
     '`' ∉ ("Added support for installments".data) ∧
     (∀ w, w ≠ [] → (∀ c ∈ w, c ≠ ']') →
        ¬ ('[' :: (w ++ [']'])) <:+: ("Added support for installments".data)) ∧
     (∀ c, ("Added support for installments".data).getLast? = some c →
        claimTrimClass c = false)) :=
  ⟨claim3_title_hygiene.1 initPState "- ****".data " ****".data (by decide) (by decide),
   claim3_title_hygiene.2
     "## [2026.1.7.0]\n- [ADYEN] Added support for installments ([#4821](https://github.com/juspay/hyperswitch/pull/4821))"
     { id := "2026-01-07", date := "2026-01-07", headline := "Release 2026-01-07",
       items := [{ title := "Added support for installments", rtype := RType.Feature,
                   connector := some "Adyen", prNumber := some "4821",
                   prUrl := some "https://github.com/juspay/hyperswitch/pull/4821",
                   originalDate := "2026-01-07", version := some "2026.1.7.0" }] }
     { title := "Added support for installments", rtype := RType.Feature,
       connector := some "Adyen", prNumber := some "4821",
       prUrl := some "https://github.com/juspay/hyperswitch/pull/4821",
       originalDate := "2026-01-07", version := some "2026.1.7.0" }
     (by decide) (by decide)⟩
